import Mathlib

/-!
Verification development for the Blobs graph engine
(`src/backend/graph_engine.py`, plus the edge-creation endpoint of
`src/backend/main.py`).

Modelling conventions:
* Node and edge identifiers are modelled as `Nat` (the source uses opaque
  uuid strings; only equality is ever used on them).
* A Python dict entry that can be absent, `None`, or a string is modelled by
  `PyVal` (`absent` / `pynone` / `pystr s`); Python truthiness of such an
  entry is `PyVal.truthy` (both `None` and the empty string are falsy).
* Python dicts are modelled as insertion-ordered association lists
  (`aget` / `aset` / `adel`), Python sets as duplicate-free lists
  (`sinsert` / `sremove`); set iteration order in the source is unspecified,
  here it is the insertion order, which no proved statement depends on.
* The `networkx.Graph` held by the engine is modelled by its node list
  (`gnodes`) and its undirected edge list (`gadj`, one entry per unordered
  endpoint pair, compared up to swapping).
* Coordinates and edge weights are modelled as `Int`; none of the proved
  statements depend on coordinate arithmetic, only on list cardinalities.
* Similarity scores (`2.0`, `3.0`, `1.0` added to `0.0`) are small exact
  floats in the source, modelled as `Int`.
* A raised Python exception (e.g. `None.lower()`) is modelled by `Option`
  results, with `none` for the raise.
-/

namespace BlobsGraph

/-- Node type tags, from `models.NodeType`. -/
inductive NodeType where
  | individual
  | project
  | blob
  | aggregated
  | skill
  | sector
deriving DecidableEq, Repr

/-- Edge type tags, from `models.EdgeType`. -/
inductive EdgeType where
  | member_of
  | works_on
  | has_skill
  | executes
  | requires
  | collaborates
  | contains
  | in_sector
  | peer
deriving DecidableEq, Repr

/-- A string-valued Python dict entry: absent key, `None` value, or a string. -/
inductive PyVal where
  | absent
  | pynone
  | pystr (s : String)
deriving DecidableEq, Repr

/-- The Python value of `d.get(key)`: `None` for an absent key. -/
def PyVal.pyget : PyVal → Option String
  | .absent => none
  | .pynone => none
  | .pystr s => some s

/-- Python truthiness of `d.get(key)`: `None` and `""` are falsy. -/
def PyVal.truthy : PyVal → Bool
  | .pystr s => s ≠ ""
  | _ => false

/-- Python `str.lower()` on the characters of a string. (Structurally
recursive equivalent of `pyLower`, chosen so that concrete instances
reduce inside the kernel.) -/
def pyLower (s : String) : String := String.mk (s.data.map Char.toLower)

/-- The value of `d.get(key, '').lower()`: `none` models the `AttributeError`
raised when the key is present with value `None`. -/
def PyVal.lowerGetD : PyVal → Option String
  | .absent => some ""
  | .pynone => none
  | .pystr s => some (pyLower s)

/-- A stored node record (the fields of the node dicts that the engine reads). -/
structure NodeRec where
  id : Nat
  node_type : NodeType
  skills : List String := []
  sector : PyVal := .absent
  location : PyVal := .absent
  x : Int := 0
  y : Int := 0
deriving DecidableEq, Repr

/-- A stored edge record. -/
structure EdgeRec where
  id : Nat
  source : Nat
  target : Nat
  edge_type : EdgeType
  weight : Int := 1
deriving DecidableEq, Repr

/-! ### Association-list dicts and list-backed sets -/

/-- `d[k]` lookup on an insertion-ordered dict. -/
def aget {β : Type} : List (Nat × β) → Nat → Option β
  | [], _ => none
  | (k, v) :: t, k' => if k = k' then some v else aget t k'

/-- `d[k] = v` on an insertion-ordered dict: replace in place or append. -/
def aset {β : Type} : List (Nat × β) → Nat → β → List (Nat × β)
  | [], k, v => [(k, v)]
  | (k', v') :: t, k, v => if k' = k then (k, v) :: t else (k', v') :: aset t k v

/-- `del d[k]` on an insertion-ordered dict. -/
def adel {β : Type} : List (Nat × β) → Nat → List (Nat × β)
  | [], _ => []
  | (k', v') :: t, k => if k' = k then adel t k else (k', v') :: adel t k

/-- `s.add(x)` on a Python set, modelled as a duplicate-free list. -/
def sinsert (s : List Nat) (x : Nat) : List Nat :=
  if x ∈ s then s else s ++ [x]

/-- `s.discard(x)` on a Python set. -/
def sremove (s : List Nat) (x : Nat) : List Nat :=
  s.filter (fun y => y ≠ x)

/-- `s.update(xs)` on a Python set. -/
def supdate (s : List Nat) (xs : List Nat) : List Nat :=
  xs.foldl sinsert s

/-! ### String-keyed defaultdict(set) indices -/

/-- Lookup in a `defaultdict(set)` index keyed by strings. -/
def iget : List (String × List Nat) → String → List Nat
  | [], _ => []
  | (k, v) :: t, k' => if k = k' then v else iget t k'

/-- Write one key of a string-keyed index. -/
def iset : List (String × List Nat) → String → List Nat → List (String × List Nat)
  | [], k, v => [(k, v)]
  | (k', v') :: t, k, v => if k' = k then (k, v) :: t else (k', v') :: iset t k v

/-- `index[key].add(n)` on a `defaultdict(set)`. -/
def iadd (ix : List (String × List Nat)) (k : String) (n : Nat) :
    List (String × List Nat) :=
  iset ix k (sinsert (iget ix k) n)

/-- `index[key].discard(n)` on a `defaultdict(set)`. -/
def idiscard (ix : List (String × List Nat)) (k : String) (n : Nat) :
    List (String × List Nat) :=
  iset ix k (sremove (iget ix k) n)

/-! And the same for the `NodeType`-keyed index. -/

/-- Lookup in the by-type `defaultdict(set)`. -/
def tget : List (NodeType × List Nat) → NodeType → List Nat
  | [], _ => []
  | (k, v) :: t, k' => if k = k' then v else tget t k'

/-- Write one key of the by-type index. -/
def tset : List (NodeType × List Nat) → NodeType → List Nat →
    List (NodeType × List Nat)
  | [], k, v => [(k, v)]
  | (k', v') :: t, k, v => if k' = k then (k, v) :: t else (k', v') :: tset t k v

/-- `nodes_by_type[t].add(n)`. -/
def tadd (ix : List (NodeType × List Nat)) (k : NodeType) (n : Nat) :
    List (NodeType × List Nat) :=
  tset ix k (sinsert (tget ix k) n)

/-- `nodes_by_type[t].discard(n)`. -/
def tdiscard (ix : List (NodeType × List Nat)) (k : NodeType) (n : Nat) :
    List (NodeType × List Nat) :=
  tset ix k (sremove (tget ix k) n)

/-! ### The undirected networkx graph -/

/-- Whether two (source, target) pairs denote the same undirected edge. -/
def pairEq (p q : Nat × Nat) : Prop :=
  (p.1 = q.1 ∧ p.2 = q.2) ∨ (p.1 = q.2 ∧ p.2 = q.1)

instance (p q : Nat × Nat) : Decidable (pairEq p q) := by
  unfold pairEq; infer_instance

/-- `graph.has_edge(s, t)`. -/
def adjHas (g : List (Nat × Nat)) (s t : Nat) : Bool :=
  g.any (fun p => decide (pairEq p (s, t)))

/-- `graph.add_edge(s, t)`: a second parallel edge only refreshes attributes. -/
def addAdj (g : List (Nat × Nat)) (s t : Nat) : List (Nat × Nat) :=
  if adjHas g s t then g else g ++ [(s, t)]

/-- `graph.remove_edge(s, t)`. -/
def removeAdj (g : List (Nat × Nat)) (s t : Nat) : List (Nat × Nat) :=
  g.filter (fun p => ¬ pairEq p (s, t))

/-- `graph.neighbors(n)`, as the duplicate-free list of adjacent nodes. -/
def nbrs (g : List (Nat × Nat)) (n : Nat) : List Nat :=
  g.foldl
    (fun acc p =>
      if p.1 = n then sinsert acc p.2
      else if p.2 = n then sinsert acc p.1 else acc) []

/-- `graph.degree(n)`: edge incidences at `n` (a self-loop counts twice). -/
def nxDegree (g : List (Nat × Nat)) (n : Nat) : Nat :=
  g.foldl
    (fun acc p =>
      acc + (if p.1 = n then 1 else 0) + (if p.2 = n then 1 else 0)) 0

/-! ### The engine state -/

/-- The mutable state of `GraphEngine` (`graph_engine.py`, `__init__`).
`layouts1` is `self.layouts.get(1, {})`, the only layout tier the viewport
query reads. -/
structure Engine where
  gnodes : List Nat := []
  gadj : List (Nat × Nat) := []
  node_data : List (Nat × NodeRec) := []
  edge_data : List (Nat × EdgeRec) := []
  nodes_by_type : List (NodeType × List Nat) := []
  nodes_by_skill : List (String × List Nat) := []
  nodes_by_sector : List (String × List Nat) := []
  nodes_by_location : List (String × List Nat) := []
  layouts1 : List (Nat × (Int × Int)) := []
deriving Repr

/-- A freshly constructed engine. -/
def Engine.empty : Engine := {}

/-- The lower-cased index key of a truthy string attribute: `none` when the
dict entry is absent, `None`, or the empty string (all falsy in
`if node_data['sector']:`). -/
def sectorKey : PyVal → Option String
  | .pystr s => if s = "" then none else some (pyLower s)
  | _ => none

/-- `if 'sector' in node_data and node_data['sector']: index[value.lower()].add(n)`. -/
def truthyAdd (ix : List (String × List Nat)) (v : PyVal) (n : Nat) :
    List (String × List Nat) :=
  match v with
  | .pystr s => if s = "" then ix else iadd ix (pyLower s) n
  | _ => ix

/-- The matching `discard` used on node removal and update. -/
def truthyDiscard (ix : List (String × List Nat)) (v : PyVal) (n : Nat) :
    List (String × List Nat) :=
  match v with
  | .pystr s => if s = "" then ix else idiscard ix (pyLower s) n
  | _ => ix

/-- `if updates['sector']: index[updates['sector'].lower()].add(n)` — the
updated value is `None` or a string. -/
def optAdd (ix : List (String × List Nat)) (v : Option String) (n : Nat) :
    List (String × List Nat) :=
  match v with
  | some s => if s = "" then ix else iadd ix (pyLower s) n
  | none => ix

/-- The index key an updated (`None`-or-string) attribute value will carry. -/
def optKey : Option String → Option String
  | some s => if s = "" then none else some (pyLower s)
  | none => none

/-- `GraphEngine.add_node`. -/
def add_node (st : Engine) (r : NodeRec) : Engine :=
  { st with
    gnodes := sinsert st.gnodes r.id
    node_data := aset st.node_data r.id r
    nodes_by_type := tadd st.nodes_by_type r.node_type r.id
    nodes_by_skill :=
      r.skills.foldl (fun ix sk => iadd ix (pyLower sk) r.id) st.nodes_by_skill
    nodes_by_sector := truthyAdd st.nodes_by_sector r.sector r.id
    nodes_by_location := truthyAdd st.nodes_by_location r.location r.id }

/-- `GraphEngine.remove_node`: returns the new state, the success flag and
the deleted-edge count (the node's `graph.degree` before removal). -/
def remove_node (st : Engine) (n : Nat) : Engine × Bool × Nat :=
  match aget st.node_data n with
  | none => (st, false, 0)
  | some r =>
    let cnt := nxDegree st.gadj n
    ({ st with
        nodes_by_type := tdiscard st.nodes_by_type r.node_type n
        nodes_by_skill :=
          r.skills.foldl (fun ix sk => idiscard ix (pyLower sk) n) st.nodes_by_skill
        nodes_by_sector := truthyDiscard st.nodes_by_sector r.sector n
        nodes_by_location := truthyDiscard st.nodes_by_location r.location n
        edge_data :=
          st.edge_data.filter (fun kv => ¬ (kv.2.source = n ∨ kv.2.target = n))
        gadj := st.gadj.filter (fun p => ¬ (p.1 = n ∨ p.2 = n))
        gnodes := st.gnodes.filter (fun m => m ≠ n)
        node_data := adel st.node_data n },
      true, cnt)

/-- `GraphEngine.get_node`. -/
def get_node (st : Engine) (n : Nat) : Option NodeRec :=
  aget st.node_data n

/-- A partial update dict passed to `update_node`. `none` fields model keys
absent from the dict. `sector = some none` models `{'sector': None}`.
Settable keys other than those the engine's index maintenance inspects
(plus `node_type`, which the merge applies without index maintenance)
are omitted: they influence none of the statements proved below. -/
structure NodeUpdates where
  skills : Option (List String) := none
  sector : Option (Option String) := none
  location : Option (Option String) := none
  node_type : Option NodeType := none
deriving Repr

/-- The dict merge `self.node_data[node_id].update(updates)`. -/
def applyUpdates (r : NodeRec) (u : NodeUpdates) : NodeRec :=
  { r with
    skills := u.skills.getD r.skills
    sector :=
      match u.sector with
      | Option.none => r.sector
      | some Option.none => .pynone
      | some (some s) => .pystr s
    location :=
      match u.location with
      | Option.none => r.location
      | some Option.none => .pynone
      | some (some s) => .pystr s
    node_type := u.node_type.getD r.node_type }

/-- `GraphEngine.update_node`. -/
def update_node (st : Engine) (n : Nat) (u : NodeUpdates) : Engine × Bool :=
  match aget st.node_data n with
  | none => (st, false)
  | some old =>
    let skillIx :=
      match u.skills with
      | none => st.nodes_by_skill
      | some newSkills =>
        let oldS := old.skills.dedup
        let newS := newSkills.dedup
        let afterDel :=
          (oldS.filter (fun s => s ∉ newS)).foldl
            (fun ix s => idiscard ix (pyLower s) n) st.nodes_by_skill
        (newS.filter (fun s => s ∉ oldS)).foldl
          (fun ix s => iadd ix (pyLower s) n) afterDel
    let sectorIx :=
      match u.sector with
      | none => st.nodes_by_sector
      | some v => optAdd (truthyDiscard st.nodes_by_sector old.sector n) v n
    let locationIx :=
      match u.location with
      | none => st.nodes_by_location
      | some v =>
        optAdd (truthyDiscard st.nodes_by_location old.location n) v n
    ({ st with
        nodes_by_skill := skillIx
        nodes_by_sector := sectorIx
        nodes_by_location := locationIx
        node_data := aset st.node_data n (applyUpdates old u) },
      true)

/-- `GraphEngine.add_edge` (networkx `add_edge` auto-registers missing
endpoint nodes in the graph's node set). -/
def add_edge (st : Engine) (e : EdgeRec) : Engine :=
  { st with
    gnodes := sinsert (sinsert st.gnodes e.source) e.target
    gadj := addAdj st.gadj e.source e.target
    edge_data := aset st.edge_data e.id e }

/-- `GraphEngine.remove_edge`. -/
def remove_edge (st : Engine) (eid : Nat) : Engine × Bool :=
  match aget st.edge_data eid with
  | none => (st, false)
  | some e =>
    ({ st with
        gadj := if adjHas st.gadj e.source e.target then
            removeAdj st.gadj e.source e.target
          else st.gadj
        edge_data := adel st.edge_data eid },
      true)

/-- The `POST /api/edges` handler `create_edge` of `main.py`: both endpoints
are checked against the store before the engine mutates anything; on a 404
the second component is `none` and the state is returned untouched. -/
def create_edge (st : Engine) (eid source target : Nat) (ety : EdgeType)
    (weight : Int) : Engine × Option EdgeRec :=
  if (get_node st source).isNone then (st, none)
  else if (get_node st target).isNone then (st, none)
  else
    let e : EdgeRec := ⟨eid, source, target, ety, weight⟩
    (add_edge st e, some e)

/-! ### Viewport query -/

/-- `models.ViewportRequest`. -/
structure ViewportRequest where
  center_x : Int := 0
  center_y : Int := 0
  width : Int := 0
  height : Int := 0
  zoom_level : Int := 1
  center_node_id : Option Nat := none
  max_depth : Int := 3
deriving Repr

/-- `models.GraphData`. -/
structure GraphData where
  nodes : List NodeRec
  edges : List EdgeRec
  total_nodes : Nat
  total_edges : Nat
  viewport_nodes : Nat
  zoom_level : Int
deriving Repr

/-- One level of `GraphEngine._get_neighbors_bfs`: expand every node of the
current frontier, collecting unvisited neighbors. -/
def bfsLevel (g : List (Nat × Nat)) (visited current : List Nat) :
    List Nat × List Nat :=
  current.foldl
    (fun acc node =>
      (nbrs g node).foldl
        (fun acc2 nb =>
          if nb ∈ acc2.1 then acc2 else (acc2.1 ++ [nb], acc2.2 ++ [nb]))
        acc)
    (visited, [])

/-- The depth loop of `_get_neighbors_bfs`. -/
def bfsUpTo (g : List (Nat × Nat)) : Nat → List Nat → List Nat → List Nat
  | 0, visited, _ => visited
  | d + 1, visited, current =>
    let step := bfsLevel g visited current
    if step.2 = [] then step.1 else bfsUpTo g d step.1 step.2

/-- `GraphEngine._get_neighbors_bfs` (empty result when the center is not a
graph node; a negative requested depth behaves like `range(  d ) = []`,
modelled through `Int.toNat`). -/
def get_neighbors_bfs (st : Engine) (center : Nat) (max_depth : Nat) :
    List Nat :=
  if center ∈ st.gnodes then bfsUpTo st.gadj max_depth [center] [center]
  else []

/-- `GraphEngine._get_nodes_in_bounds`. -/
def get_nodes_in_bounds (st : Engine) (min_x max_x min_y max_y : Int) :
    List Nat :=
  st.node_data.foldl
    (fun acc kv =>
      if min_x ≤ kv.2.x ∧ kv.2.x ≤ max_x ∧ min_y ≤ kv.2.y ∧ kv.2.y ≤ max_y
      then sinsert acc kv.1 else acc)
    []

/-- The visible-node-set computation of `GraphEngine.get_viewport_graph`. -/
def viewportVisible (st : Engine) (req : ViewportRequest) : List Nat :=
  let max_depth := min req.max_depth 3
  if req.zoom_level = 0 then
    supdate
      (supdate (supdate [] (tget st.nodes_by_type .aggregated))
        (tget st.nodes_by_type .blob))
      (tget st.nodes_by_type .project)
  else if req.zoom_level = 1 then
    let base :=
      supdate
        (supdate (supdate [] (tget st.nodes_by_type .aggregated))
          (tget st.nodes_by_type .blob))
        (tget st.nodes_by_type .project)
    match req.center_node_id with
    | some c =>
      let nearby := get_neighbors_bfs st c 2
      let individuals :=
        nearby.filter (fun n => n ∈ tget st.nodes_by_type .individual)
      supdate base (individuals.take 200)
    | none => base
  else
    match req.center_node_id with
    | some c => get_neighbors_bfs st c max_depth.toNat
    | none =>
      let b :=
        get_nodes_in_bounds st (req.center_x - req.width / 2)
          (req.center_x + req.width / 2) (req.center_y - req.height / 2)
          (req.center_y + req.height / 2)
      if b.length > 2000 then b.take 2000 else b

/-- The edge-selection loop of `get_viewport_graph`: keep an edge when both
endpoints are visible, deduplicated by unordered endpoint pair. -/
def viewportEdges (st : Engine) (visible : List Nat) : List EdgeRec :=
  (st.edge_data.foldl
    (fun (acc : List EdgeRec × List (Nat × Nat)) kv =>
      let e := kv.2
      if e.source ∈ visible ∧ e.target ∈ visible ∧
          (e.source, e.target) ∉ acc.2 ∧ (e.target, e.source) ∉ acc.2 then
        (acc.1 ++ [e], acc.2 ++ [(e.source, e.target)])
      else acc)
    ([], [])).1

/-- One step of the response-node assembly of `get_viewport_graph`: copy the
record of a visible id, overriding its position from the detail-tier layout
when cached. -/
def viewportStep (st : Engine) (acc : List NodeRec) (nid : Nat) :
    List NodeRec :=
  match aget st.node_data nid with
  | none => acc
  | some r =>
    match aget st.layouts1 nid with
    | some p => acc ++ [{ r with x := p.1, y := p.2 }]
    | none => acc ++ [r]

/-- The response-node assembly of `get_viewport_graph`. -/
def viewportNodes (st : Engine) (visible : List Nat) : List NodeRec :=
  visible.foldl (viewportStep st) []

/-- `GraphEngine.get_viewport_graph`. -/
def get_viewport_graph (st : Engine) (req : ViewportRequest) : GraphData :=
  let visible := viewportVisible st req
  { nodes := viewportNodes st visible
    edges := viewportEdges st visible
    total_nodes := st.node_data.length
    total_edges := st.edge_data.length
    viewport_nodes := visible.length
    zoom_level := req.zoom_level }

/-! ### Discovery -/

/-- Python `l[:n]` slicing, including the negative-`n` case. -/
def pySlice {α : Type} (l : List α) (n : Int) : List α :=
  if n < 0 then l.take ((l.length + n).toNat) else l.take n.toNat

/-- The relationship-type check of `discover_related`: some stored edge joins
the two nodes and carries a type in the filter set. -/
def edgeMatch (st : Engine) (a b : Nat) (relTypes : List EdgeType) : Bool :=
  st.edge_data.any
    (fun kv =>
      decide (((kv.2.source = a ∧ kv.2.target = b) ∨
          (kv.2.source = b ∧ kv.2.target = a)) ∧
        kv.2.edge_type ∈ relTypes))

/-- The handling of one neighbor inside the BFS while-loop of
`discover_related`: skip it when already visited or rejected by the
relationship-type filter; otherwise mark it visited, enqueue it with its
extended path, and — when its record is stored — collect the record and the
path. -/
def discoverVisit (st : Engine) (relTypes : List EdgeType) (cur : Nat)
    (path : List Nat)
    (acc : List Nat × List (Nat × List Nat) × List NodeRec × List (List Nat))
    (nb : Nat) :
    List Nat × List (Nat × List Nat) × List NodeRec × List (List Nat) :=
  if nb ∈ acc.1 then acc
  else if relTypes ≠ [] ∧ ¬ edgeMatch st cur nb relTypes then acc
  else
    let newPath := path ++ [nb]
    match aget st.node_data nb with
    | some r =>
      (acc.1 ++ [nb], acc.2.1 ++ [(nb, newPath)],
        acc.2.2.1 ++ [r], acc.2.2.2 ++ [newPath])
    | none =>
      (acc.1 ++ [nb], acc.2.1 ++ [(nb, newPath)],
        acc.2.2.1, acc.2.2.2)

/-- The neighbor-expansion step of `discover_related` for one dequeued node:
folds over `graph.neighbors(cur)`, threading (visited, queue, related,
paths). -/
def discoverStep (st : Engine) (relTypes : List EdgeType) (cur : Nat)
    (path : List Nat)
    (acc : List Nat × List (Nat × List Nat) × List NodeRec × List (List Nat)) :
    List Nat × List (Nat × List Nat) × List NodeRec × List (List Nat) :=
  (nbrs st.gadj cur).foldl (discoverVisit st relTypes cur path) acc

/-- The BFS while-loop of `discover_related`. The loop pops one queue entry
per iteration and every node is enqueued at most once, so
`gnodes.length + 2 * gadj.length + 1` units of fuel always suffice. -/
def discoverLoop (st : Engine) (relTypes : List EdgeType)
    (max_depth limit : Int) :
    Nat → List Nat → List (Nat × List Nat) → List NodeRec →
    List (List Nat) → List NodeRec × List (List Nat)
  | 0, _, _, related, paths => (related, paths)
  | _ + 1, _, [], related, paths => (related, paths)
  | fuel + 1, visited, (cur, path) :: qrest, related, paths =>
    if (related.length : Int) < limit then
      if (path.length : Int) > max_depth + 1 then
        discoverLoop st relTypes max_depth limit fuel visited qrest related
          paths
      else
        let s := discoverStep st relTypes cur path
          (visited, qrest, related, paths)
        discoverLoop st relTypes max_depth limit fuel s.1 s.2.1 s.2.2.1
          s.2.2.2
    else (related, paths)

/-- `GraphEngine.discover_related`. An empty `relTypes` models the falsy
`relationship_types` (Python `None` or `[]`): no filtering. -/
def discover_related (st : Engine) (node_id : Nat) (max_depth limit : Int)
    (relTypes : List EdgeType) :
    Option NodeRec × List NodeRec × List (List Nat) :=
  match aget st.node_data node_id with
  | none => (none, [], [])
  | some src =>
    let fuel := st.gnodes.length + 2 * st.gadj.length + 1
    let out := discoverLoop st relTypes max_depth limit fuel [node_id]
      [(node_id, [node_id])] [] []
    (some src, pySlice out.1 limit, pySlice out.2 limit)

/-! ### Similarity -/

/-- The per-candidate score block of `GraphEngine.get_similar_nodes`.
`none` models the `AttributeError` raised by `None.lower()` when a node's
`sector` key holds `None` (the candidate's sector is only touched when the
source's lower-cased sector is non-empty, mirroring the short-circuit). -/
def simScore (source cand : NodeRec) : Option Int :=
  match source.sector.lowerGetD with
  | none => none
  | some srcSec =>
    let srcSkills := source.skills.dedup
    let cSkills := cand.skills.dedup
    let base : Int :=
      if srcSkills ≠ [] ∧ cSkills ≠ [] then
        2 * ((srcSkills.filter (fun s => s ∈ cSkills)).length : Int)
      else 0
    let withSec : Option Int :=
      if srcSec = "" then some base
      else
        match cand.sector.lowerGetD with
        | none => none
        | some cSec => some (base + if cSec = srcSec then 3 else 0)
    match withSec with
    | none => none
    | some sc =>
      some (sc +
        if source.location.truthy ∧
            source.location.pyget = cand.location.pyget then 1 else 0)

/-- Stable insertion into a descending-score list (Python's stable
`sort(key=lambda x: -x[0])`: among equal scores, earlier entries stay
earlier). -/
def insertDesc (p : Int × NodeRec) : List (Int × NodeRec) →
    List (Int × NodeRec)
  | [] => [p]
  | q :: t => if q.1 ≥ p.1 then q :: insertDesc p t else p :: q :: t

/-- Stable descending sort by score. -/
def sortDesc : List (Int × NodeRec) → List (Int × NodeRec)
  | [] => []
  | p :: t => insertDesc p (sortDesc t)

/-- `GraphEngine.get_similar_nodes`; `none` models the raise described at
`simScore`. -/
def get_similar_nodes (st : Engine) (node_id : Nat) (limit : Int) :
    Option (List NodeRec) :=
  match aget st.node_data node_id with
  | none => some []
  | some source =>
    match source.sector.lowerGetD with
    | none => none
    | some _ =>
      let scoredOpt :=
        st.node_data.foldl
          (fun (acc : Option (List (Int × NodeRec))) kv =>
            match acc with
            | none => none
            | some scored =>
              if kv.1 = node_id then some scored
              else if kv.2.node_type ≠ source.node_type then some scored
              else
                match simScore source kv.2 with
                | none => none
                | some sc =>
                  if sc > 0 then some (scored ++ [(sc, kv.2)])
                  else some scored)
          (some [])
      match scoredOpt with
      | none => none
      | some scored => some ((pySlice (sortDesc scored) limit).map Prod.snd)

/-! ## Basic lemmas about the dict / set / index operations -/

theorem aget_aset_self {β : Type} (d : List (Nat × β)) (k : Nat) (v : β) :
    aget (aset d k v) k = some v := by
  induction d with
  | nil => simp [aset, aget]
  | cons kv t ih =>
    by_cases h : kv.1 = k
    · simp [aset, h, aget]
    · simp [aset, h, aget, ih]

theorem aget_aset_ne {β : Type} (d : List (Nat × β)) (k k' : Nat) (v : β)
    (h : k ≠ k') : aget (aset d k v) k' = aget d k' := by
  induction d with
  | nil => simp [aset, aget, h]
  | cons kv t ih =>
    by_cases hk : kv.1 = k
    · simp only [aset, if_pos hk, aget, hk]
      rw [if_neg h, if_neg h]
    · simp only [aset, if_neg hk, aget, ih]

theorem aget_adel_self {β : Type} (d : List (Nat × β)) (k : Nat) :
    aget (adel d k) k = none := by
  induction d with
  | nil => simp [adel, aget]
  | cons kv t ih =>
    obtain ⟨k', v'⟩ := kv
    by_cases h : k' = k
    · simpa [adel, h] using ih
    · simpa [adel, h, aget] using ih

theorem aget_adel_ne {β : Type} (d : List (Nat × β)) (k k' : Nat)
    (h : k ≠ k') : aget (adel d k) k' = aget d k' := by
  induction d with
  | nil => simp [adel, aget]
  | cons kv t ih =>
    obtain ⟨a, v'⟩ := kv
    by_cases hk : a = k
    · subst hk
      simp [adel, aget, h, ih]
    · simp only [adel, if_neg hk, aget, ih]

theorem mem_sinsert {s : List Nat} {x y : Nat} :
    y ∈ sinsert s x ↔ y ∈ s ∨ y = x := by
  unfold sinsert
  by_cases h : x ∈ s
  · simp only [if_pos h]
    constructor
    · exact Or.inl
    · rintro (hy | rfl)
      · exact hy
      · exact h
  · simp [if_neg h]

theorem sinsert_nodup {s : List Nat} (h : s.Nodup) (x : Nat) :
    (sinsert s x).Nodup := by
  unfold sinsert
  by_cases hx : x ∈ s
  · simpa [hx]
  · simpa [hx] using List.Nodup.append h (by simp) (by simpa using hx)

theorem mem_sremove {s : List Nat} {x y : Nat} :
    y ∈ sremove s x ↔ y ∈ s ∧ y ≠ x := by
  simp [sremove, List.mem_filter]

theorem mem_supdate {s xs : List Nat} {y : Nat} :
    y ∈ supdate s xs ↔ y ∈ s ∨ y ∈ xs := by
  induction xs generalizing s with
  | nil => simp [supdate]
  | cons a t ih =>
    show y ∈ supdate (sinsert s a) t ↔ _
    rw [ih, mem_sinsert, List.mem_cons]
    tauto

theorem supdate_nil (s : List Nat) : supdate s [] = s := rfl

theorem supdate_nodup {s xs : List Nat} (h : s.Nodup) :
    (supdate s xs).Nodup := by
  induction xs generalizing s with
  | nil => exact h
  | cons a t ih => exact ih (sinsert_nodup h a)

theorem supdate_of_disjoint {s xs : List Nat} (hx : xs.Nodup)
    (hd : ∀ x ∈ xs, x ∉ s) : supdate s xs = s ++ xs := by
  induction xs generalizing s with
  | nil => simp [supdate]
  | cons a t ih =>
    have ha : a ∉ s := hd a (by simp)
    show supdate (sinsert s a) t = _
    rw [ih (by simpa using hx.of_cons)]
    · simp [sinsert, ha]
    · intro x hx2
      rw [mem_sinsert]
      rintro (h | rfl)
      · exact hd x (by simp [hx2]) h
      · exact (List.nodup_cons.mp hx).1 hx2

theorem iget_iset_self (ix : List (String × List Nat)) (k : String)
    (v : List Nat) : iget (iset ix k v) k = v := by
  induction ix with
  | nil => simp [iset, iget]
  | cons kv t ih =>
    by_cases h : kv.1 = k
    · simp [iset, h, iget]
    · simp [iset, h, iget, ih]

theorem iget_iset_ne (ix : List (String × List Nat)) (k k' : String)
    (v : List Nat) (h : k ≠ k') : iget (iset ix k v) k' = iget ix k' := by
  induction ix with
  | nil => simp [iset, iget, h]
  | cons kv t ih =>
    by_cases hk : kv.1 = k
    · simp only [iset, if_pos hk, iget, hk]
      rw [if_neg h, if_neg h]
    · simp only [iset, if_neg hk, iget, ih]

theorem mem_iget_iadd (ix : List (String × List Nat)) (k k' : String)
    (n m : Nat) :
    m ∈ iget (iadd ix k n) k' ↔ m ∈ iget ix k' ∨ (k' = k ∧ m = n) := by
  unfold iadd
  by_cases h : k = k'
  · subst h
    rw [iget_iset_self, mem_sinsert]
    tauto
  · rw [iget_iset_ne _ _ _ _ h]
    have : ¬ (k' = k ∧ m = n) := fun hc => h hc.1.symm
    tauto

theorem mem_iget_idiscard (ix : List (String × List Nat)) (k k' : String)
    (n m : Nat) :
    m ∈ iget (idiscard ix k n) k' ↔ m ∈ iget ix k' ∧ ¬ (k' = k ∧ m = n) := by
  unfold idiscard
  by_cases h : k = k'
  · subst h
    rw [iget_iset_self, mem_sremove]
    tauto
  · rw [iget_iset_ne _ _ _ _ h]
    have : ¬ (k' = k ∧ m = n) := fun hc => h hc.1.symm
    tauto

theorem tget_tset_self (ix : List (NodeType × List Nat)) (k : NodeType)
    (v : List Nat) : tget (tset ix k v) k = v := by
  induction ix with
  | nil => simp [tset, tget]
  | cons kv t ih =>
    by_cases h : kv.1 = k
    · simp [tset, h, tget]
    · simp [tset, h, tget, ih]

theorem tget_tset_ne (ix : List (NodeType × List Nat)) (k k' : NodeType)
    (v : List Nat) (h : k ≠ k') : tget (tset ix k v) k' = tget ix k' := by
  induction ix with
  | nil => simp [tset, tget, h]
  | cons kv t ih =>
    by_cases hk : kv.1 = k
    · simp only [tset, if_pos hk, tget, hk]
      rw [if_neg h, if_neg h]
    · simp only [tset, if_neg hk, tget, ih]

theorem mem_tget_tadd (ix : List (NodeType × List Nat)) (k k' : NodeType)
    (n m : Nat) :
    m ∈ tget (tadd ix k n) k' ↔ m ∈ tget ix k' ∨ (k' = k ∧ m = n) := by
  unfold tadd
  by_cases h : k = k'
  · subst h
    rw [tget_tset_self, mem_sinsert]
    tauto
  · rw [tget_tset_ne _ _ _ _ h]
    have : ¬ (k' = k ∧ m = n) := fun hc => h hc.1.symm
    tauto

theorem mem_tget_tdiscard (ix : List (NodeType × List Nat)) (k k' : NodeType)
    (n m : Nat) :
    m ∈ tget (tdiscard ix k n) k' ↔ m ∈ tget ix k' ∧ ¬ (k' = k ∧ m = n) := by
  unfold tdiscard
  by_cases h : k = k'
  · subst h
    rw [tget_tset_self, mem_sremove]
    tauto
  · rw [tget_tset_ne _ _ _ _ h]
    have : ¬ (k' = k ∧ m = n) := fun hc => h hc.1.symm
    tauto

/-! ## Graph-side lemmas -/

/-- Multiplicity of an unordered endpoint pair in the networkx edge list. -/
def countPair (g : List (Nat × Nat)) (s t : Nat) : Nat :=
  g.countP (fun p => decide (pairEq p (s, t)))

theorem pairEq_symm {p q : Nat × Nat} (h : pairEq p q) : pairEq q p := by
  unfold pairEq at *
  tauto

theorem pairEq_congr {a b : Nat × Nat} (h : pairEq a b) (p : Nat × Nat) :
    pairEq p a ↔ pairEq p b := by
  unfold pairEq at *
  obtain ⟨x, y⟩ := a
  obtain ⟨u, v⟩ := b
  obtain ⟨r, w⟩ := p
  simp only at *
  omega

theorem adjHas_iff {g : List (Nat × Nat)} {s t : Nat} :
    adjHas g s t = true ↔ ∃ p ∈ g, pairEq p (s, t) := by
  simp [adjHas, List.any_eq_true]

theorem adjHas_false_iff {g : List (Nat × Nat)} {s t : Nat} :
    adjHas g s t = false ↔ countPair g s t = 0 := by
  rw [← Bool.not_eq_true, adjHas_iff]
  unfold countPair
  rw [List.countP_eq_zero]
  simp

theorem countPair_pos_of_adjHas {g : List (Nat × Nat)} {s t : Nat}
    (h : adjHas g s t = true) : 0 < countPair g s t := by
  rcases adjHas_iff.mp h with ⟨p, hp, hpe⟩
  unfold countPair
  exact List.countP_pos_iff.mpr ⟨p, hp, by simpa using hpe⟩

theorem countPair_addAdj {g : List (Nat × Nat)} {s t : Nat}
    (h : countPair g s t ≤ 1) : countPair (addAdj g s t) s t = 1 := by
  unfold addAdj
  by_cases ha : adjHas g s t
  · have := countPair_pos_of_adjHas ha
    simp only [if_pos ha]
    omega
  · have h0 : countPair g s t = 0 :=
      adjHas_false_iff.mp (by simpa using ha)
    simp only [if_neg ha]
    unfold countPair at *
    rw [List.countP_append, h0]
    simp [pairEq]

theorem countPair_removeAdj (g : List (Nat × Nat)) (s t : Nat) :
    countPair (removeAdj g s t) s t = 0 := by
  unfold countPair removeAdj
  rw [List.countP_eq_zero]
  intro p hp
  rw [List.mem_filter] at hp
  simpa using hp.2

theorem mem_nbrs {g : List (Nat × Nat)} {n x : Nat} :
    x ∈ nbrs g n ↔ ∃ p ∈ g, (p.1 = n ∧ p.2 = x) ∨ (p.2 = n ∧ p.1 = x) := by
  have aux : ∀ (l : List (Nat × Nat)) (acc : List Nat),
      (x ∈ l.foldl
          (fun acc p =>
            if p.1 = n then sinsert acc p.2
            else if p.2 = n then sinsert acc p.1 else acc) acc ↔
        x ∈ acc ∨ ∃ p ∈ l, (p.1 = n ∧ p.2 = x) ∨ (p.2 = n ∧ p.1 = x)) := by
    intro l
    induction l with
    | nil => simp
    | cons a t ih =>
      intro acc
      simp only [List.foldl_cons, ih, List.mem_cons]
      by_cases h1 : a.1 = n
      · simp only [if_pos h1, mem_sinsert]
        constructor
        · rintro ((hx | rfl) | ⟨p, hp, hpe⟩)
          · exact Or.inl hx
          · exact Or.inr ⟨a, Or.inl rfl, Or.inl ⟨h1, rfl⟩⟩
          · exact Or.inr ⟨p, Or.inr hp, hpe⟩
        · rintro (hx | ⟨p, (rfl | hp), hpe⟩)
          · exact Or.inl (Or.inl hx)
          · rcases hpe with ⟨_, h2⟩ | ⟨h2, h3⟩
            · exact Or.inl (Or.inr h2.symm)
            · exact Or.inl (Or.inr (by omega))
          · exact Or.inr ⟨p, hp, hpe⟩
      · by_cases h2 : a.2 = n
        · simp only [if_neg h1, if_pos h2, mem_sinsert]
          constructor
          · rintro ((hx | rfl) | ⟨p, hp, hpe⟩)
            · exact Or.inl hx
            · exact Or.inr ⟨a, Or.inl rfl, Or.inr ⟨h2, rfl⟩⟩
            · exact Or.inr ⟨p, Or.inr hp, hpe⟩
          · rintro (hx | ⟨p, (rfl | hp), hpe⟩)
            · exact Or.inl (Or.inl hx)
            · rcases hpe with ⟨h3, h4⟩ | ⟨_, h4⟩
              · exact absurd h3 h1
              · exact Or.inl (Or.inr h4.symm)
            · exact Or.inr ⟨p, hp, hpe⟩
        · simp only [if_neg h1, if_neg h2]
          constructor
          · rintro (hx | ⟨p, hp, hpe⟩)
            · exact Or.inl hx
            · exact Or.inr ⟨p, Or.inr hp, hpe⟩
          · rintro (hx | ⟨p, (rfl | hp), hpe⟩)
            · exact Or.inl hx
            · rcases hpe with ⟨h3, _⟩ | ⟨h3, _⟩
              · exact absurd h3 h1
              · exact absurd h3 h2
            · exact Or.inr ⟨p, hp, hpe⟩
  simpa using aux g []

theorem not_mem_nbrs_of_countPair_zero {g : List (Nat × Nat)} {s t : Nat}
    (h : countPair g s t = 0) : t ∉ nbrs g s := by
  intro hmem
  rcases mem_nbrs.mp hmem with ⟨p, hp, hpe⟩
  have : pairEq p (s, t) := by
    unfold pairEq
    rcases hpe with ⟨h1, h2⟩ | ⟨h1, h2⟩
    · exact Or.inl ⟨h1, h2⟩
    · exact Or.inr ⟨h2, h1⟩
  unfold countPair at h
  rw [List.countP_eq_zero] at h
  exact absurd (by simpa using this) (by simpa using h p hp)

/-! ## C1: remove_node returns the prior degree and erases incident
edge records -/

/-- C1. For a stored node `n`, `remove_node` succeeds, returns a
deleted-edge count equal to `n`'s graph degree immediately before removal,
and afterwards no stored edge record has `n` as source or target. -/
theorem removeNode_degree_and_no_edges (st : Engine) (n : Nat) (r : NodeRec)
    (h : aget st.node_data n = some r) :
    (remove_node st n).2.1 = true ∧
      (remove_node st n).2.2 = nxDegree st.gadj n ∧
      ∀ kv ∈ (remove_node st n).1.edge_data,
        kv.2.source ≠ n ∧ kv.2.target ≠ n := by
  unfold remove_node
  rw [h]
  refine ⟨rfl, rfl, ?_⟩
  intro kv hkv
  simp only [List.mem_filter] at hkv
  have := hkv.2
  constructor
  · intro hs
    simp [hs] at this
  · intro ht
    simp [ht] at this

/-! Shared concrete example states for witnesses and counterexamples. -/

/-- Example node 1 (an Individual). -/
def exN1 : NodeRec := { id := 1, node_type := .individual }

/-- Example node 2 (an Individual). -/
def exN2 : NodeRec := { id := 2, node_type := .individual }

/-- Example node 3 (an Individual). -/
def exN3 : NodeRec := { id := 3, node_type := .individual }

/-- Example engine holding the path 1 - 2 - 3. -/
def exChain : Engine :=
  add_edge
    (add_edge (add_node (add_node (add_node .empty exN1) exN2) exN3)
      { id := 10, source := 1, target := 2, edge_type := .peer })
    { id := 11, source := 2, target := 3, edge_type := .peer }

/-- Witness for C1 at the concrete chain state, removing node 2. -/
theorem removeNode_degree_and_no_edges_witness :
    (remove_node exChain 2).2.1 = true ∧
      (remove_node exChain 2).2.2 = nxDegree exChain.gadj 2 ∧
      ∀ kv ∈ (remove_node exChain 2).1.edge_data,
        kv.2.source ≠ 2 ∧ kv.2.target ≠ 2 :=
  removeNode_degree_and_no_edges exChain 2 exN2 (by rfl)

/-! ## C2: create_edge rejects missing endpoints without storing anything -/

/-- C2. The edge-creation endpoint fails (404, second component `none`) when
either endpoint id is not stored, and returns the store unchanged: no edge
record is added and the adjacency relation is untouched. -/
theorem createEdge_missing_endpoint (st : Engine) (eid s t : Nat)
    (ty : EdgeType) (w : Int)
    (h : get_node st s = none ∨ get_node st t = none) :
    create_edge st eid s t ty w = (st, none) := by
  unfold create_edge
  rcases h with h | h
  · simp [h]
  · by_cases hs : (get_node st s).isNone
    · simp [hs]
    · simp [hs, h]

/-- Witness for C2: a missing source id on the empty engine. -/
theorem createEdge_missing_endpoint_witness :
    create_edge Engine.empty 5 1 2 EdgeType.peer 1 = (Engine.empty, none) :=
  createEdge_missing_endpoint Engine.empty 5 1 2 EdgeType.peer 1
    (Or.inl (by rfl))

/-! ## C9: viewport at tier >= 2 with an unknown center returns the empty
visible set, not an error -/

theorem viewportEdges_nil (st : Engine) : viewportEdges st [] = [] := by
  unfold viewportEdges
  have aux : ∀ (l : List (Nat × EdgeRec)),
      (l.foldl
        (fun (acc : List EdgeRec × List (Nat × Nat)) kv =>
          let e := kv.2
          if e.source ∈ ([] : List Nat) ∧ e.target ∈ ([] : List Nat) ∧
              (e.source, e.target) ∉ acc.2 ∧ (e.target, e.source) ∉ acc.2 then
            (acc.1 ++ [e], acc.2 ++ [(e.source, e.target)])
          else acc)
        ([], [])) = ([], []) := by
    intro l
    induction l with
    | nil => rfl
    | cons kv tl ih => simpa using ih
  rw [aux]

/-- C9. A viewport query at zoom tier >= 2 whose supplied center node id is
not a graph node returns empty node and edge lists and `viewport_nodes = 0`
while still reporting the store's total node and edge counts. -/
theorem viewport_unknown_center (st : Engine) (req : ViewportRequest)
    (c : Nat) (hz : 2 ≤ req.zoom_level) (hc : req.center_node_id = some c)
    (hg : c ∉ st.gnodes) :
    (get_viewport_graph st req).nodes = [] ∧
      (get_viewport_graph st req).edges = [] ∧
      (get_viewport_graph st req).viewport_nodes = 0 ∧
      (get_viewport_graph st req).total_nodes = st.node_data.length ∧
      (get_viewport_graph st req).total_edges = st.edge_data.length := by
  have h0 : ¬ req.zoom_level = 0 := by omega
  have h1 : ¬ req.zoom_level = 1 := by omega
  have hv : viewportVisible st req = [] := by
    unfold viewportVisible
    simp only [if_neg h0, if_neg h1, hc]
    unfold get_neighbors_bfs
    simp [hg]
  unfold get_viewport_graph
  rw [hv]
  exact ⟨rfl, viewportEdges_nil st, rfl, rfl, rfl⟩

/-- Witness for C9 at the concrete chain state with unknown center 99. -/
theorem viewport_unknown_center_witness :
    (get_viewport_graph exChain
        { zoom_level := 2, center_node_id := some 99 }).nodes = [] ∧
      (get_viewport_graph exChain
        { zoom_level := 2, center_node_id := some 99 }).edges = [] ∧
      (get_viewport_graph exChain
        { zoom_level := 2, center_node_id := some 99 }).viewport_nodes = 0 ∧
      (get_viewport_graph exChain
        { zoom_level := 2, center_node_id := some 99 }).total_nodes =
        exChain.node_data.length ∧
      (get_viewport_graph exChain
        { zoom_level := 2, center_node_id := some 99 }).total_edges =
        exChain.edge_data.length :=
  viewport_unknown_center exChain _ 99 (by decide) rfl (by decide)

/-! ## C8: duplicate edge records share one adjacency; removing either
record by id removes the adjacency while the other record stays stored -/

/-- C8. Adding two edge records with distinct ids over the same unordered
endpoint pair leaves both records stored but a single adjacency; removing
either record by id drops that adjacency for every traversal (the endpoints
stop being neighbors) while the other record stays stored. The `hcount`
hypothesis states the networkx invariant that an unordered pair occurs at
most once in the edge list, which every reachable engine state satisfies. -/
theorem duplicate_edge_records (st : Engine) (e1 e2 : EdgeRec)
    (hid : e1.id ≠ e2.id)
    (hpair : pairEq (e1.source, e1.target) (e2.source, e2.target))
    (hcount : countPair st.gadj e1.source e1.target ≤ 1) :
    aget (add_edge (add_edge st e1) e2).edge_data e1.id = some e1 ∧
      aget (add_edge (add_edge st e1) e2).edge_data e2.id = some e2 ∧
      countPair (add_edge (add_edge st e1) e2).gadj e1.source e1.target = 1 ∧
      (adjHas (remove_edge (add_edge (add_edge st e1) e2) e1.id).1.gadj
          e1.source e1.target = false ∧
        e1.target ∉
          nbrs (remove_edge (add_edge (add_edge st e1) e2) e1.id).1.gadj
            e1.source ∧
        aget (remove_edge (add_edge (add_edge st e1) e2) e1.id).1.edge_data
            e1.id = none ∧
        aget (remove_edge (add_edge (add_edge st e1) e2) e1.id).1.edge_data
            e2.id = some e2) ∧
      (adjHas (remove_edge (add_edge (add_edge st e1) e2) e2.id).1.gadj
          e1.source e1.target = false ∧
        e1.target ∉
          nbrs (remove_edge (add_edge (add_edge st e1) e2) e2.id).1.gadj
            e1.source ∧
        aget (remove_edge (add_edge (add_edge st e1) e2) e2.id).1.edge_data
            e2.id = none ∧
        aget (remove_edge (add_edge (add_edge st e1) e2) e2.id).1.edge_data
            e1.id = some e1) := by
  have hget1 : aget (add_edge (add_edge st e1) e2).edge_data e1.id =
      some e1 := by
    show aget (aset (aset st.edge_data e1.id e1) e2.id e2) e1.id = some e1
    rw [aget_aset_ne _ _ _ _ (Ne.symm hid), aget_aset_self]
  have hget2 : aget (add_edge (add_edge st e1) e2).edge_data e2.id =
      some e2 := by
    show aget (aset (aset st.edge_data e1.id e1) e2.id e2) e2.id = some e2
    rw [aget_aset_self]
  have hc1 : countPair (addAdj st.gadj e1.source e1.target) e1.source
      e1.target = 1 := countPair_addAdj hcount
  have hcong := pairEq_congr hpair
  have hcount2a : countPair (addAdj st.gadj e1.source e1.target) e2.source
      e2.target = 1 := by
    unfold countPair at hc1 ⊢
    rw [← hc1]
    apply List.countP_congr
    intro p _
    simp [hcong p]
  have hc2 : countPair (add_edge (add_edge st e1) e2).gadj e1.source
      e1.target = 1 := by
    show countPair (addAdj (addAdj st.gadj e1.source e1.target) e2.source
      e2.target) e1.source e1.target = 1
    have := countPair_addAdj (le_of_eq hcount2a)
    unfold countPair at this ⊢
    rw [← this]
    apply List.countP_congr
    intro p _
    simp [hcong p]
  have hadj2 : adjHas (add_edge (add_edge st e1) e2).gadj e1.source
      e1.target = true := by
    by_contra hne
    have := adjHas_false_iff.mp (by simpa using hne)
    omega
  -- removal of the first record
  have hrm1 : remove_edge (add_edge (add_edge st e1) e2) e1.id =
      (⟨(add_edge (add_edge st e1) e2).gnodes,
          removeAdj (add_edge (add_edge st e1) e2).gadj e1.source e1.target,
          (add_edge (add_edge st e1) e2).node_data,
          adel (add_edge (add_edge st e1) e2).edge_data e1.id,
          (add_edge (add_edge st e1) e2).nodes_by_type,
          (add_edge (add_edge st e1) e2).nodes_by_skill,
          (add_edge (add_edge st e1) e2).nodes_by_sector,
          (add_edge (add_edge st e1) e2).nodes_by_location,
          (add_edge (add_edge st e1) e2).layouts1⟩, true) := by
    unfold remove_edge
    rw [hget1]
    simp [hadj2]
  have hadj2b : adjHas (add_edge (add_edge st e1) e2).gadj e2.source
      e2.target = true := by
    rw [adjHas_iff]
    rcases adjHas_iff.mp hadj2 with ⟨p, hp, hpe⟩
    exact ⟨p, hp, (hcong p).mp hpe⟩
  have hrm2 : remove_edge (add_edge (add_edge st e1) e2) e2.id =
      (⟨(add_edge (add_edge st e1) e2).gnodes,
          removeAdj (add_edge (add_edge st e1) e2).gadj e2.source e2.target,
          (add_edge (add_edge st e1) e2).node_data,
          adel (add_edge (add_edge st e1) e2).edge_data e2.id,
          (add_edge (add_edge st e1) e2).nodes_by_type,
          (add_edge (add_edge st e1) e2).nodes_by_skill,
          (add_edge (add_edge st e1) e2).nodes_by_sector,
          (add_edge (add_edge st e1) e2).nodes_by_location,
          (add_edge (add_edge st e1) e2).layouts1⟩, true) := by
    unfold remove_edge
    rw [hget2]
    simp [hadj2b]
  have hz1 : countPair
      (removeAdj (add_edge (add_edge st e1) e2).gadj e1.source e1.target)
      e1.source e1.target = 0 := countPair_removeAdj _ _ _
  have hz2 : countPair
      (removeAdj (add_edge (add_edge st e1) e2).gadj e2.source e2.target)
      e1.source e1.target = 0 := by
    have h0 := countPair_removeAdj (add_edge (add_edge st e1) e2).gadj
      e2.source e2.target
    unfold countPair at h0 ⊢
    rw [← h0]
    apply List.countP_congr
    intro p _
    simp [hcong p]
  refine ⟨hget1, hget2, hc2, ?_, ?_⟩
  · rw [hrm1]
    refine ⟨adjHas_false_iff.mpr hz1, not_mem_nbrs_of_countPair_zero hz1,
      ?_, ?_⟩
    · exact aget_adel_self _ _
    · rw [aget_adel_ne _ _ _ hid, hget2]
  · rw [hrm2]
    refine ⟨adjHas_false_iff.mpr hz2, not_mem_nbrs_of_countPair_zero hz2,
      ?_, ?_⟩
    · exact aget_adel_self _ _
    · rw [aget_adel_ne _ _ _ (Ne.symm hid), hget1]

/-- First example duplicate edge record over nodes 1 and 2. -/
def exE20 : EdgeRec := { id := 20, source := 1, target := 2, edge_type := .peer }

/-- Second example duplicate edge record, written in the opposite
orientation. -/
def exE21 : EdgeRec :=
  { id := 21, source := 2, target := 1, edge_type := .collaborates }

/-- Witness for C8: records 20 and 21 over the unordered pair of nodes 1 and
2 on the empty engine. -/
theorem duplicate_edge_records_witness :
    aget (add_edge (add_edge Engine.empty exE20) exE21).edge_data exE20.id =
        some exE20 ∧
      aget (add_edge (add_edge Engine.empty exE20) exE21).edge_data exE21.id =
        some exE21 ∧
      countPair (add_edge (add_edge Engine.empty exE20) exE21).gadj
        exE20.source exE20.target = 1 ∧
      (adjHas (remove_edge (add_edge (add_edge Engine.empty exE20) exE21)
            exE20.id).1.gadj exE20.source exE20.target = false ∧
        exE20.target ∉
          nbrs (remove_edge (add_edge (add_edge Engine.empty exE20) exE21)
            exE20.id).1.gadj exE20.source ∧
        aget (remove_edge (add_edge (add_edge Engine.empty exE20) exE21)
            exE20.id).1.edge_data exE20.id = none ∧
        aget (remove_edge (add_edge (add_edge Engine.empty exE20) exE21)
            exE20.id).1.edge_data exE21.id = some exE21) ∧
      (adjHas (remove_edge (add_edge (add_edge Engine.empty exE20) exE21)
            exE21.id).1.gadj exE20.source exE20.target = false ∧
        exE20.target ∉
          nbrs (remove_edge (add_edge (add_edge Engine.empty exE20) exE21)
            exE21.id).1.gadj exE20.source ∧
        aget (remove_edge (add_edge (add_edge Engine.empty exE20) exE21)
            exE21.id).1.edge_data exE21.id = none ∧
        aget (remove_edge (add_edge (add_edge Engine.empty exE20) exE21)
            exE21.id).1.edge_data exE20.id = some exE20) :=
  duplicate_edge_records Engine.empty exE20 exE21 (by decide)
    (by unfold pairEq exE20 exE21; simp) (by decide)

/-! ## C4: viewport caps -/

/-- If some node is in a type-index bucket, that bucket is an entry of the
index list. -/
theorem mem_tget_pair {ix : List (NodeType × List Nat)} {t : NodeType}
    {n : Nat} (h : n ∈ tget ix t) : (t, tget ix t) ∈ ix := by
  induction ix with
  | nil => simp [tget] at h
  | cons kv tl ih =>
    by_cases hk : kv.1 = t
    · subst hk
      simp only [tget, if_pos rfl] at h ⊢
      exact List.mem_cons_self _ _
    · simp only [tget, if_neg hk] at h ⊢
      exact List.mem_cons_of_mem _ (ih h)

/-- Case analysis of one assembly step. -/
theorem viewportStep_cases (st : Engine) (acc : List NodeRec) (nid : Nat) :
    viewportStep st acc nid = acc ∨
      ∃ r, aget st.node_data nid = some r ∧
        ∃ q : NodeRec, q.node_type = r.node_type ∧
          viewportStep st acc nid = acc ++ [q] := by
  unfold viewportStep
  rcases hget : aget st.node_data nid with _ | r
  · exact Or.inl rfl
  · rcases hlay : aget st.layouts1 nid with _ | p
    · exact Or.inr ⟨r, rfl, r, rfl, rfl⟩
    · exact Or.inr ⟨r, rfl, { r with x := p.1, y := p.2 }, rfl, rfl⟩

/-- The record count appended by one step: one when the id is stored, zero
otherwise. -/
theorem viewportStep_countP (st : Engine) (acc : List NodeRec) (nid : Nat)
    (ty : NodeType) :
    (viewportStep st acc nid).countP (fun r => decide (r.node_type = ty)) =
      acc.countP (fun r => decide (r.node_type = ty)) +
        (if (aget st.node_data nid).map NodeRec.node_type = some ty then 1
          else 0) := by
  unfold viewportStep
  rcases hget : aget st.node_data nid with _ | r
  · simp
  · have happ : ∀ q : NodeRec, q.node_type = r.node_type →
        (acc ++ [q]).countP (fun r => decide (r.node_type = ty)) =
          acc.countP (fun r => decide (r.node_type = ty)) +
            (if some r.node_type = some ty then 1 else 0) := by
      intro q hq
      rw [List.countP_append, List.countP_cons]
      by_cases hr : r.node_type = ty
      · simp [hq, hr]
      · simp [hq, hr]
    rcases hlay : aget st.layouts1 nid with _ | p
    · simpa using happ r rfl
    · simpa using happ { r with x := p.1, y := p.2 } rfl

/-- The response-node assembly appends at most one record per visible id. -/
theorem viewportNodes_length_le (st : Engine) (visible : List Nat) :
    (viewportNodes st visible).length ≤ visible.length := by
  have aux : ∀ (l : List Nat) (acc : List NodeRec),
      (l.foldl (viewportStep st) acc).length ≤ acc.length + l.length := by
    intro l
    induction l with
    | nil => simp
    | cons a tl ih =>
      intro acc
      rw [List.foldl_cons]
      rcases viewportStep_cases st acc a with hs | ⟨r, _, q, _, hs⟩
      · rw [hs]
        calc _ ≤ acc.length + tl.length := ih acc
          _ ≤ _ := by simp
      · rw [hs]
        calc _ ≤ (acc ++ [q]).length + tl.length := ih _
          _ ≤ _ := by simp; omega
  simpa using aux visible []

/-- Each record the viewport returns keeps the `node_type` of the stored
record of some visible id; counted per type, the response equals the count of
visible ids whose stored record carries that type. -/
theorem viewportNodes_countP (st : Engine) (visible : List Nat)
    (ty : NodeType) :
    ((viewportNodes st visible).countP (fun r => decide (r.node_type = ty))) =
      visible.countP
        (fun n => decide ((aget st.node_data n).map NodeRec.node_type =
          some ty)) := by
  have aux : ∀ (l : List Nat) (acc : List NodeRec),
      ((l.foldl (viewportStep st) acc).countP
          (fun r => decide (r.node_type = ty))) =
        acc.countP (fun r => decide (r.node_type = ty)) +
          l.countP
            (fun n => decide ((aget st.node_data n).map NodeRec.node_type =
              some ty)) := by
    intro l
    induction l with
    | nil => simp
    | cons a tl ih =>
      intro acc
      rw [List.foldl_cons, List.countP_cons, ih, viewportStep_countP]
      by_cases hm : (aget st.node_data a).map NodeRec.node_type = some ty
      · simp [hm]
        omega
      · simp [hm]
  simpa using aux visible []

/-- Soundness of the by-type index: every id a type bucket holds is stored
with that type. This is the state invariant the engine maintains; it can be
violated only by `update_node` calls that rewrite `node_type` (the index is
not maintained for that key) or by duplicate-id `add_node` calls. -/
def TypeIndexOK (st : Engine) : Prop :=
  ∀ p ∈ st.nodes_by_type, ∀ n ∈ p.2,
    (aget st.node_data n).map NodeRec.node_type = some p.1

instance (st : Engine) : Decidable (TypeIndexOK st) := by
  unfold TypeIndexOK
  infer_instance

/-- The tier-0 and tier-1 base visible set (the three aggregate-type
buckets) contains no id stored as an Individual, under `TypeIndexOK`. -/
theorem base_no_individual (st : Engine) (hok : TypeIndexOK st) (n : Nat)
    (hn : n ∈ supdate
      (supdate (supdate [] (tget st.nodes_by_type .aggregated))
        (tget st.nodes_by_type .blob))
      (tget st.nodes_by_type .project)) :
    ¬ (aget st.node_data n).map NodeRec.node_type = some .individual := by
  rw [mem_supdate, mem_supdate, mem_supdate] at hn
  rcases hn with ((h | h) | h) | h
  · simp at h
  · rw [hok _ (mem_tget_pair h) n h]
    simp
  · rw [hok _ (mem_tget_pair h) n h]
    simp
  · rw [hok _ (mem_tget_pair h) n h]
    simp

/-- C4, amended. (i) At zoom tier >= 2 a viewport query with no center node
id returns at most 2000 nodes. (ii) At tier 1 — in a state whose by-type
index is sound — a viewport query returns at most 200 Individual-type
records. (The original claim asserted the 2000-node cap at every tier; at
tiers 0 and 1 no truncation exists, see the counterexample.) -/
theorem viewport_caps (st : Engine) (req : ViewportRequest) :
    (2 ≤ req.zoom_level → req.center_node_id = none →
      (get_viewport_graph st req).nodes.length ≤ 2000) ∧
    (req.zoom_level = 1 → TypeIndexOK st →
      ((get_viewport_graph st req).nodes.filter
        (fun r => decide (r.node_type = .individual))).length ≤ 200) := by
  constructor
  · intro hz hc
    have h0 : ¬ req.zoom_level = 0 := by omega
    have h1 : ¬ req.zoom_level = 1 := by omega
    have hvis : (viewportVisible st req).length ≤ 2000 := by
      unfold viewportVisible
      simp only [if_neg h0, if_neg h1, hc]
      set b := get_nodes_in_bounds st (req.center_x - req.width / 2)
        (req.center_x + req.width / 2) (req.center_y - req.height / 2)
        (req.center_y + req.height / 2) with hb
      by_cases hlen : b.length > 2000
      · simp only [if_pos hlen]
        simpa using List.length_take_le 2000 b
      · simp only [if_neg hlen]
        omega
    calc (get_viewport_graph st req).nodes.length
        ≤ (viewportVisible st req).length :=
          viewportNodes_length_le st (viewportVisible st req)
      _ ≤ 2000 := hvis
  · intro hz hok
    have h0 : ¬ req.zoom_level = 0 := by
      rw [hz]
      omega
    rw [← List.countP_eq_length_filter]
    show ((viewportNodes st (viewportVisible st req)).countP _) ≤ 200
    rw [viewportNodes_countP]
    set base := supdate
      (supdate (supdate [] (tget st.nodes_by_type .aggregated))
        (tget st.nodes_by_type .blob))
      (tget st.nodes_by_type .project) with hbase
    have hbase_zero : base.countP
        (fun n => decide ((aget st.node_data n).map NodeRec.node_type =
          some .individual)) = 0 := by
      rw [List.countP_eq_zero]
      intro n hn
      simpa using base_no_individual st hok n hn
    have hvis : viewportVisible st req = base ∨
        ∃ taken : List Nat, taken.length ≤ 200 ∧
          viewportVisible st req = supdate base taken := by
      unfold viewportVisible
      simp only [if_neg h0, hz, if_pos rfl]
      rcases req.center_node_id with _ | c
      · exact Or.inl rfl
      · refine Or.inr ⟨((get_neighbors_bfs st c 2).filter
          (fun n => decide (n ∈ tget st.nodes_by_type .individual))).take 200,
          ?_, rfl⟩
        simpa using List.length_take_le 200 _
    rcases hvis with hvv | ⟨taken, htk, hvv⟩
    · rw [hvv, hbase_zero]
      omega
    · rw [hvv]
      have hnodup : (supdate base taken).Nodup :=
        supdate_nodup (supdate_nodup (supdate_nodup (supdate_nodup
          List.nodup_nil)))
      rw [List.countP_eq_length_filter]
      have hsubset : (supdate base taken).filter
          (fun n => decide ((aget st.node_data n).map NodeRec.node_type =
            some .individual)) ⊆ taken := by
        intro n hn
        rw [List.mem_filter] at hn
        rcases mem_supdate.mp hn.1 with hb | ht
        · exact absurd (by simpa using hn.2)
            (base_no_individual st hok n hb)
        · exact ht
      calc ((supdate base taken).filter _).length
          ≤ taken.length :=
            (List.subperm_of_subset (hnodup.filter _) hsubset).length_le
        _ ≤ 200 := htk

/-- The nodes the viewport returns are the assembly over the visible set. -/
theorem get_viewport_graph_nodes (st : Engine) (req : ViewportRequest) :
    (get_viewport_graph st req).nodes =
      viewportNodes st (viewportVisible st req) := rfl

/-- A 2001-blob state for the C4 counterexample: tier 0 applies no
truncation. -/
def bigBlobState (k : Nat) : Engine :=
  (List.range k).foldl
    (fun st n => add_node st { id := n, node_type := .blob }) .empty

theorem bigBlobState_fields (k : Nat) :
    tget (bigBlobState k).nodes_by_type .blob = List.range k ∧
      tget (bigBlobState k).nodes_by_type .aggregated = [] ∧
      tget (bigBlobState k).nodes_by_type .project = [] ∧
      (∀ n, n < k →
        aget (bigBlobState k).node_data n =
          some { id := n, node_type := .blob }) ∧
      (bigBlobState k).layouts1 = [] := by
  induction k with
  | zero =>
    refine ⟨rfl, rfl, rfl, ?_, rfl⟩
    intro n hn
    omega
  | succ k ih =>
    obtain ⟨ihb, iha, ihp, ihd, ihl⟩ := ih
    have hstep : bigBlobState (k + 1) =
        add_node (bigBlobState k) { id := k, node_type := .blob } := by
      unfold bigBlobState
      rw [List.range_succ, List.foldl_append]
      rfl
    have hknotin : k ∉ tget (bigBlobState k).nodes_by_type .blob := by
      rw [ihb]
      simp
    refine ⟨?_, ?_, ?_, ?_, ?_⟩
    · rw [hstep]
      show tget (tadd (bigBlobState k).nodes_by_type .blob k) .blob = _
      unfold tadd
      rw [tget_tset_self, sinsert, if_neg hknotin, ihb, List.range_succ]
    · rw [hstep]
      show tget (tadd (bigBlobState k).nodes_by_type .blob k) .aggregated = _
      unfold tadd
      rw [tget_tset_ne _ _ _ _ (by decide), iha]
    · rw [hstep]
      show tget (tadd (bigBlobState k).nodes_by_type .blob k) .project = _
      unfold tadd
      rw [tget_tset_ne _ _ _ _ (by decide), ihp]
    · intro n hn
      rw [hstep]
      show aget (aset (bigBlobState k).node_data k
        { id := k, node_type := .blob }) n = _
      by_cases hnk : n = k
      · subst hnk
        rw [aget_aset_self]
      · rw [aget_aset_ne _ _ _ _ (Ne.symm hnk)]
        exact ihd n (by omega)
    · rw [hstep]
      exact ihl

/-- The response-node list is as long as the visible list when every visible
id is stored. -/
theorem viewportNodes_length_eq (st : Engine) (visible : List Nat)
    (h : ∀ n ∈ visible, (aget st.node_data n).isSome) :
    (viewportNodes st visible).length = visible.length := by
  have aux : ∀ (l : List Nat) (acc : List NodeRec),
      (∀ n ∈ l, (aget st.node_data n).isSome) →
      (l.foldl (viewportStep st) acc).length = acc.length + l.length := by
    intro l
    induction l with
    | nil => simp
    | cons a tl ih =>
      intro acc hall
      rw [List.foldl_cons]
      rcases viewportStep_cases st acc a with hs | ⟨r, _, q, _, hs⟩
      · exfalso
        have h1 := hall a (by simp)
        unfold viewportStep at hs
        rcases hget : aget st.node_data a with _ | r
        · rw [hget] at h1
          simp at h1
        · rw [hget] at hs
          rcases hlay : aget st.layouts1 a with _ | p
          · rw [hlay] at hs
            simp at hs
          · rw [hlay] at hs
            simp at hs
      · rw [hs, ih _ (fun n hn => hall n (by simp [hn]))]
        simp
        omega
  simpa using aux visible [] h

/-- Counterexample to C4 as stated: at zoom tier 0 with no center node id,
a store holding 2001 Blob nodes gets all 2001 of them back — the 2000-node
truncation only exists on the tier >= 2 spatial path. -/
theorem viewport_caps_counterexample :
    2000 < (get_viewport_graph (bigBlobState 2001)
      { zoom_level := 0 }).nodes.length := by
  obtain ⟨hb, ha, hp, hd, _⟩ := bigBlobState_fields 2001
  have hvis : viewportVisible (bigBlobState 2001) { zoom_level := 0 } =
      List.range 2001 := by
    unfold viewportVisible
    simp only [if_pos rfl]
    rw [hb, ha, hp]
    rw [show supdate ([] : List Nat) [] = [] from rfl]
    rw [supdate_of_disjoint (List.nodup_range _)
      (fun x _ hx => List.not_mem_nil x hx)]
    rw [List.nil_append, if_pos trivial, supdate_nil]
  rw [get_viewport_graph_nodes, hvis, viewportNodes_length_eq]
  · simp
  · intro n hn
    rw [List.mem_range] at hn
    rw [hd n hn]
    rfl

/-- Witness for the amended C4 at concrete inputs: the chain state with a
tier-2 centerless request and a tier-1 request. -/
theorem viewport_caps_witness :
    (get_viewport_graph exChain { zoom_level := 2 }).nodes.length ≤ 2000 ∧
      ((get_viewport_graph exChain { zoom_level := 1 }).nodes.filter
        (fun r => decide (r.node_type = .individual))).length ≤ 200 :=
  ⟨(viewport_caps exChain { zoom_level := 2 }).1 (by decide) rfl,
    (viewport_caps exChain { zoom_level := 1 }).2 rfl (by decide)⟩

/-! ## C3 / C10: properties of discover_related -/

/-- Every stored node record carries its own store key as its `id` — the
well-keyedness invariant `add_node` establishes (it stores each record under
`record.id`). -/
def WellKeyed (st : Engine) : Prop :=
  ∀ kv ∈ st.node_data, kv.2.id = kv.1

instance (st : Engine) : Decidable (WellKeyed st) := by
  unfold WellKeyed
  infer_instance

/-- A successful association-list lookup is a membership. -/
theorem aget_mem {β : Type} {d : List (Nat × β)} {k : Nat} {v : β}
    (h : aget d k = some v) : (k, v) ∈ d := by
  induction d with
  | nil => simp [aget] at h
  | cons kv t ih =>
    obtain ⟨a, b⟩ := kv
    by_cases hk : a = k
    · subst hk
      simp [aget] at h
      subst h
      exact List.mem_cons_self _ _
    · rw [aget, if_neg hk] at h
      exact List.mem_cons_of_mem _ (ih h)

theorem adjHas_of_mem_nbrs {g : List (Nat × Nat)} {n x : Nat}
    (h : x ∈ nbrs g n) : adjHas g n x = true := by
  rcases mem_nbrs.mp h with ⟨p, hp, hpe⟩
  rw [adjHas_iff]
  refine ⟨p, hp, ?_⟩
  unfold pairEq
  rcases hpe with ⟨h1, h2⟩ | ⟨h1, h2⟩
  · exact Or.inl ⟨h1, h2⟩
  · exact Or.inr ⟨h2, h1⟩

/-- A discovery path is rooted at the source, walks adjacencies, and repeats
no node. -/
def pathOK (g : List (Nat × Nat)) (start : Nat) (p : List Nat) : Prop :=
  p.head? = some start ∧
    List.Chain' (fun a b => adjHas g a b = true) p ∧ p.Nodup

/-- Queue invariant of the BFS loop: every queued path is rooted and simple,
ends at its queued node, and is contained in the visited set. -/
def queueInv (g : List (Nat × Nat)) (start : Nat) (visited : List Nat)
    (queue : List (Nat × List Nat)) : Prop :=
  ∀ cp ∈ queue, pathOK g start cp.2 ∧ cp.2.getLast? = some cp.1 ∧
    ∀ x ∈ cp.2, x ∈ visited

/-- Output-paths invariant: rooted, simple, and of at most `maxDepth + 2`
node ids. -/
def pathsInv (g : List (Nat × Nat)) (start : Nat) (maxDepth : Int)
    (paths : List (List Nat)) : Prop :=
  ∀ p ∈ paths, pathOK g start p ∧ (p.length : Int) ≤ maxDepth + 2

/-- Related-records invariant: pairwise-distinct ids, all visited. -/
def relInv (visited : List Nat) (related : List NodeRec) : Prop :=
  (related.map NodeRec.id).Nodup ∧ ∀ r ∈ related, r.id ∈ visited

/-- Extending a rooted simple path by an adjacent unvisited node. -/
theorem pathOK_extend {g : List (Nat × Nat)} {start cur nb : Nat}
    {path : List Nat} (h : pathOK g start path)
    (hlast : path.getLast? = some cur) (hadj : adjHas g cur nb = true)
    (hnotin : nb ∉ path) :
    pathOK g start (path ++ [nb]) ∧ (path ++ [nb]).getLast? = some nb := by
  obtain ⟨hhead, hchain, hnodup⟩ := h
  refine ⟨⟨?_, ?_, ?_⟩, List.getLast?_concat path⟩
  · rcases path with _ | ⟨a, t⟩
    · simp at hhead
    · simpa using hhead
  · rw [List.chain'_append]
    refine ⟨hchain, List.chain'_singleton nb, ?_⟩
    intro x hx y hy
    rw [hlast] at hx
    simp at hx hy
    rw [← hx, ← hy]
    exact hadj
  · simp [List.nodup_append, hnodup, hnotin]

/-- Each neighbor visit either leaves the accumulator unchanged or marks a
previously unvisited node, enqueues its extended path, and possibly collects
its stored record together with that path. -/
theorem discoverVisit_cases (st : Engine) (relTypes : List EdgeType)
    (cur : Nat) (path : List Nat)
    (acc : List Nat × List (Nat × List Nat) × List NodeRec × List (List Nat))
    (nb : Nat) :
    discoverVisit st relTypes cur path acc nb = acc ∨
      (nb ∉ acc.1 ∧
        (discoverVisit st relTypes cur path acc nb =
            (acc.1 ++ [nb], acc.2.1 ++ [(nb, path ++ [nb])], acc.2.2.1,
              acc.2.2.2) ∨
          ∃ r, aget st.node_data nb = some r ∧
            discoverVisit st relTypes cur path acc nb =
              (acc.1 ++ [nb], acc.2.1 ++ [(nb, path ++ [nb])],
                acc.2.2.1 ++ [r], acc.2.2.2 ++ [path ++ [nb]]))) := by
  unfold discoverVisit
  by_cases hm : nb ∈ acc.1
  · exact Or.inl (by rw [if_pos hm])
  · by_cases hf : relTypes ≠ [] ∧ ¬ edgeMatch st cur nb relTypes
    · exact Or.inl (by rw [if_neg hm, if_pos hf])
    · rcases hget : aget st.node_data nb with _ | r
      · refine Or.inr ⟨hm, Or.inl ?_⟩
        rw [if_neg hm, if_neg hf]
      · refine Or.inr ⟨hm, Or.inr ⟨r, rfl, ?_⟩⟩
        rw [if_neg hm, if_neg hf]

/-- The neighbor fold preserves the queue and paths invariants and only
extends the visited set, provided the dequeued path is rooted, simple,
visited, ends at the dequeued node, and respects the expansion guard. -/
theorem discoverStep_paths_inv (st : Engine) (relTypes : List EdgeType)
    (start cur : Nat) (path : List Nat) (maxDepth : Int)
    (hpath : pathOK st.gadj start path)
    (hlast : path.getLast? = some cur)
    (hlen : (path.length : Int) ≤ maxDepth + 1) :
    ∀ (L : List Nat), (∀ nb ∈ L, adjHas st.gadj cur nb = true) →
    ∀ (acc : List Nat × List (Nat × List Nat) × List NodeRec ×
        List (List Nat)),
    (∀ x ∈ path, x ∈ acc.1) →
    queueInv st.gadj start acc.1 acc.2.1 →
    pathsInv st.gadj start maxDepth acc.2.2.2 →
    (∀ x ∈ acc.1,
        x ∈ (L.foldl (discoverVisit st relTypes cur path) acc).1) ∧
      queueInv st.gadj start
        (L.foldl (discoverVisit st relTypes cur path) acc).1
        (L.foldl (discoverVisit st relTypes cur path) acc).2.1 ∧
      pathsInv st.gadj start maxDepth
        (L.foldl (discoverVisit st relTypes cur path) acc).2.2.2 := by
  intro L
  induction L with
  | nil => exact fun _ acc _ hq hp => ⟨fun x hx => hx, hq, hp⟩
  | cons nb tL ih =>
    intro hadjL acc hpathvis hq hp
    rw [List.foldl_cons]
    have htail : ∀ x ∈ tL, adjHas st.gadj cur x = true :=
      fun x hx => hadjL x (by simp [hx])
    rcases discoverVisit_cases st relTypes cur path acc nb with hv |
      ⟨hnb, hv | ⟨r, _, hv⟩⟩
    · rw [hv]
      exact ih htail acc hpathvis hq hp
    · rw [hv]
      have hnbpath : nb ∉ path := fun hmem => hnb (hpathvis nb hmem)
      have hext := pathOK_extend hpath hlast (hadjL nb (by simp)) hnbpath
      have hq2 : queueInv st.gadj start (acc.1 ++ [nb])
          (acc.2.1 ++ [(nb, path ++ [nb])]) := by
        intro cp hcp
        rcases List.mem_append.mp hcp with hcp | hcp
        · obtain ⟨h1, h2, h3⟩ := hq cp hcp
          exact ⟨h1, h2, fun x hx => by simp [h3 x hx]⟩
        · simp only [List.mem_singleton] at hcp
          rw [hcp]
          refine ⟨hext.1, hext.2, ?_⟩
          intro x hx
          rcases List.mem_append.mp hx with hx | hx
          · simp [hpathvis x hx]
          · simp only [List.mem_singleton] at hx
            simp [hx]
      have hstep := ih htail (acc.1 ++ [nb],
        acc.2.1 ++ [(nb, path ++ [nb])], acc.2.2.1, acc.2.2.2)
        (fun x hx => by simp [hpathvis x hx]) hq2 hp
      exact ⟨fun x hx => hstep.1 x (by simp [hx]), hstep.2.1, hstep.2.2⟩
    · rw [hv]
      have hnbpath : nb ∉ path := fun hmem => hnb (hpathvis nb hmem)
      have hext := pathOK_extend hpath hlast (hadjL nb (by simp)) hnbpath
      have hq2 : queueInv st.gadj start (acc.1 ++ [nb])
          (acc.2.1 ++ [(nb, path ++ [nb])]) := by
        intro cp hcp
        rcases List.mem_append.mp hcp with hcp | hcp
        · obtain ⟨h1, h2, h3⟩ := hq cp hcp
          exact ⟨h1, h2, fun x hx => by simp [h3 x hx]⟩
        · simp only [List.mem_singleton] at hcp
          rw [hcp]
          refine ⟨hext.1, hext.2, ?_⟩
          intro x hx
          rcases List.mem_append.mp hx with hx | hx
          · simp [hpathvis x hx]
          · simp only [List.mem_singleton] at hx
            simp [hx]
      have hp2 : pathsInv st.gadj start maxDepth
          (acc.2.2.2 ++ [path ++ [nb]]) := by
        intro p hpmem
        rcases List.mem_append.mp hpmem with hpm | hpm
        · exact hp p hpm
        · simp only [List.mem_singleton] at hpm
          rw [hpm]
          refine ⟨hext.1, ?_⟩
          rw [List.length_append]
          push_cast
          simp only [List.length_singleton]
          omega
      have hstep := ih htail (acc.1 ++ [nb],
        acc.2.1 ++ [(nb, path ++ [nb])], acc.2.2.1 ++ [r],
        acc.2.2.2 ++ [path ++ [nb]])
        (fun x hx => by simp [hpathvis x hx]) hq2 hp2
      exact ⟨fun x hx => hstep.1 x (by simp [hx]), hstep.2.1, hstep.2.2⟩

/-- The BFS while-loop preserves the paths invariant. -/
theorem discoverLoop_paths_inv (st : Engine) (relTypes : List EdgeType)
    (maxDepth limit : Int) (start : Nat) :
    ∀ (fuel : Nat) (visited : List Nat) (queue : List (Nat × List Nat))
      (related : List NodeRec) (paths : List (List Nat)),
    queueInv st.gadj start visited queue →
    pathsInv st.gadj start maxDepth paths →
    pathsInv st.gadj start maxDepth
      (discoverLoop st relTypes maxDepth limit fuel visited queue related
        paths).2 := by
  intro fuel
  induction fuel with
  | zero => exact fun _ _ _ paths _ hp => hp
  | succ fuel ih =>
    intro visited queue related paths hq hp
    rcases queue with _ | ⟨⟨cur, path⟩, qrest⟩
    · exact hp
    · by_cases hlim : (related.length : Int) < limit
      · by_cases hguard : (path.length : Int) > maxDepth + 1
        · show pathsInv _ _ _ (if (related.length : Int) < limit then _
            else (related, paths)).2
          rw [if_pos hlim, if_pos hguard]
          exact ih visited qrest related paths
            (fun cp hcp => hq cp (List.mem_cons_of_mem _ hcp)) hp
        · show pathsInv _ _ _ (if (related.length : Int) < limit then _
            else (related, paths)).2
          rw [if_pos hlim, if_neg hguard]
          obtain ⟨hpath, hlast, hvis⟩ := hq (cur, path)
            (List.mem_cons_self _ _)
          have hlen : (path.length : Int) ≤ maxDepth + 1 := by omega
          have hstep := discoverStep_paths_inv st relTypes start cur path
            maxDepth hpath hlast hlen (nbrs st.gadj cur)
            (fun nb h => adjHas_of_mem_nbrs h)
            (visited, qrest, related, paths) hvis
            (fun cp hcp => hq cp (List.mem_cons_of_mem _ hcp)) hp
          exact ih _ _ _ _ hstep.2.1 hstep.2.2
      · show pathsInv _ _ _ (if (related.length : Int) < limit then _
          else (related, paths)).2
        rw [if_neg hlim]
        exact hp

/-- The neighbor fold preserves the related-records invariant when the store
is well-keyed. -/
theorem discoverStep_rel_inv (st : Engine) (relTypes : List EdgeType)
    (cur : Nat) (path : List Nat) (hwk : WellKeyed st) :
    ∀ (L : List Nat)
      (acc : List Nat × List (Nat × List Nat) × List NodeRec ×
        List (List Nat)),
    relInv acc.1 acc.2.2.1 →
    relInv (L.foldl (discoverVisit st relTypes cur path) acc).1
      (L.foldl (discoverVisit st relTypes cur path) acc).2.2.1 := by
  intro L
  induction L with
  | nil => exact fun _ hr => hr
  | cons nb tL ih =>
    intro acc hr
    rw [List.foldl_cons]
    rcases discoverVisit_cases st relTypes cur path acc nb with hv |
      ⟨hnb, hv | ⟨r, hget, hv⟩⟩
    · rw [hv]
      exact ih acc hr
    · rw [hv]
      refine ih _ ⟨hr.1, ?_⟩
      intro q hqmem
      simp [hr.2 q hqmem]
    · rw [hv]
      have hrid : r.id = nb := hwk (nb, r) (aget_mem hget)
      refine ih _ ⟨?_, ?_⟩
      · rw [List.map_append]
        simp only [List.map_cons, List.map_nil]
        rw [List.nodup_append]
        refine ⟨hr.1, by simp, ?_⟩
        intro x hx
        have : x ∈ acc.1 := by
          rcases List.mem_map.mp hx with ⟨q, hqmem, hqid⟩
          rw [← hqid]
          exact hr.2 q hqmem
        simp only [List.mem_singleton]
        intro hxnb
        rw [hxnb, hrid] at this
        exact hnb this
      · intro q hqmem
        rcases List.mem_append.mp hqmem with hqm | hqm
        · simp [hr.2 q hqm]
        · simp only [List.mem_singleton] at hqm
          rw [hqm, hrid]
          simp

/-- The BFS while-loop preserves the related-records invariant. -/
theorem discoverLoop_rel_inv (st : Engine) (relTypes : List EdgeType)
    (maxDepth limit : Int) (hwk : WellKeyed st) :
    ∀ (fuel : Nat) (visited : List Nat) (queue : List (Nat × List Nat))
      (related : List NodeRec) (paths : List (List Nat)),
    relInv visited related →
    ((discoverLoop st relTypes maxDepth limit fuel visited queue related
        paths).1.map NodeRec.id).Nodup := by
  intro fuel
  induction fuel with
  | zero => exact fun _ _ related _ hr => hr.1
  | succ fuel ih =>
    intro visited queue related paths hr
    rcases queue with _ | ⟨⟨cur, path⟩, qrest⟩
    · exact hr.1
    · by_cases hlim : (related.length : Int) < limit
      · by_cases hguard : (path.length : Int) > maxDepth + 1
        · show ((if (related.length : Int) < limit then _
            else (related, paths)).1.map NodeRec.id).Nodup
          rw [if_pos hlim, if_pos hguard]
          exact ih visited qrest related paths hr
        · show ((if (related.length : Int) < limit then _
            else (related, paths)).1.map NodeRec.id).Nodup
          rw [if_pos hlim, if_neg hguard]
          have hstep := discoverStep_rel_inv st relTypes cur path hwk
            (nbrs st.gadj cur) (visited, qrest, related, paths) hr
          exact ih _ _ _ _ hstep
      · show ((if (related.length : Int) < limit then _
          else (related, paths)).1.map NodeRec.id).Nodup
        rw [if_neg hlim]
        exact hr.1

/-- Python slicing keeps only elements of the original list. -/
theorem mem_pySlice {α : Type} {l : List α} {n : Int} {x : α}
    (h : x ∈ pySlice l n) : x ∈ l := by
  unfold pySlice at h
  by_cases hn : n < 0
  · rw [if_pos hn] at h
    exact List.mem_of_mem_take h
  · rw [if_neg hn] at h
    exact List.mem_of_mem_take h

/-- Python slicing commutes with `map`. -/
theorem pySlice_map {α β : Type} (f : α → β) (l : List α) (n : Int) :
    pySlice (l.map f) n = (pySlice l n).map f := by
  unfold pySlice
  rw [List.length_map]
  by_cases hn : n < 0
  · rw [if_pos hn, if_pos hn, List.map_take]
  · rw [if_neg hn, if_neg hn, List.map_take]

/-- C3, amended. Every path `discover_related` returns starts at the source
node and holds at most `maxDepth + 2` node ids (the source plus up to
`maxDepth + 1` hops: the loop expands nodes at depth up to `maxDepth`
inclusive, so returned paths reach one hop beyond; the claimed `d + 1` cap
is off by one, see the counterexample). -/
theorem discover_path_bounds (st : Engine) (n : Nat) (d lim : Int)
    (relTypes : List EdgeType) :
    ∀ p ∈ (discover_related st n d lim relTypes).2.2,
      p.head? = some n ∧ (p.length : Int) ≤ d + 2 := by
  intro p hp
  unfold discover_related at hp
  rcases hget : aget st.node_data n with _ | src
  · rw [hget] at hp
    simp at hp
  · rw [hget] at hp
    have hq0 : queueInv st.gadj n [n] [(n, [n])] := by
      intro cp hcp
      simp only [List.mem_singleton] at hcp
      rw [hcp]
      refine ⟨⟨rfl, List.chain'_singleton n, by simp⟩, rfl, ?_⟩
      intro x hx
      simpa using hx
    have hloop := discoverLoop_paths_inv st relTypes d lim n
      (st.gnodes.length + 2 * st.gadj.length + 1) [n] [(n, [n])] [] []
      hq0 (fun q hq => by simp at hq)
    have hpmem := mem_pySlice hp
    exact ⟨(hloop p hpmem).1.1, (hloop p hpmem).2⟩

/-- Counterexample to C3 as stated: on the path 1 - 2 - 3,
`discover_related` from node 1 with `max_depth = 1` returns the path
`[1, 2, 3]` of 3 > 1 + 1 node ids. -/
theorem discover_path_bounds_counterexample :
    [1, 2, 3] ∈ (discover_related exChain 1 1 20 []).2.2 ∧
      ¬ ((([1, 2, 3] : List Nat).length : Int) ≤ 1 + 1) := by
  constructor
  · decide
  · decide

/-- Witness for the amended C3 at the concrete chain state and the returned
path `[1, 2]`. -/
theorem discover_path_bounds_witness :
    ([1, 2] : List Nat).head? = some 1 ∧
      ((([1, 2] : List Nat).length : Int) ≤ 1 + 2) :=
  discover_path_bounds exChain 1 1 20 [] [1, 2] (by decide)

/-- C10. In a well-keyed store, every path `discover_related` returns is a
simple path of the adjacency graph (consecutive ids adjacent, no id twice),
and the related records carry pairwise-distinct ids (each related node is
returned at most once). -/
theorem discover_simple_paths (st : Engine) (hwk : WellKeyed st) (n : Nat)
    (d lim : Int) (relTypes : List EdgeType) :
    (∀ p ∈ (discover_related st n d lim relTypes).2.2,
        List.Chain' (fun a b => adjHas st.gadj a b = true) p ∧ p.Nodup) ∧
      ((discover_related st n d lim relTypes).2.1.map NodeRec.id).Nodup := by
  unfold discover_related
  rcases hget : aget st.node_data n with _ | src
  · constructor
    · intro p hp
      simp at hp
    · simp
  · have hq0 : queueInv st.gadj n [n] [(n, [n])] := by
      intro cp hcp
      simp only [List.mem_singleton] at hcp
      rw [hcp]
      refine ⟨⟨rfl, List.chain'_singleton n, by simp⟩, rfl, ?_⟩
      intro x hx
      simpa using hx
    have hloopA := discoverLoop_paths_inv st relTypes d lim n
      (st.gnodes.length + 2 * st.gadj.length + 1) [n] [(n, [n])] [] []
      hq0 (fun q hq => by simp at hq)
    have hloopB := discoverLoop_rel_inv st relTypes d lim hwk
      (st.gnodes.length + 2 * st.gadj.length + 1) [n] [(n, [n])] [] []
      ⟨by simp, by simp⟩
    constructor
    · intro p hp
      have hpmem := mem_pySlice hp
      exact ⟨(hloopA p hpmem).1.2.1, (hloopA p hpmem).1.2.2⟩
    · rw [← pySlice_map]
      unfold pySlice
      by_cases hn : lim < 0
      · rw [if_pos hn]
        exact (List.take_sublist _ _).nodup hloopB
      · rw [if_neg hn]
        exact (List.take_sublist _ _).nodup hloopB

/-- Witness for C10 at the concrete chain state. -/
theorem discover_simple_paths_witness :
    (∀ p ∈ (discover_related exChain 1 1 20 []).2.2,
        List.Chain' (fun a b => adjHas exChain.gadj a b = true) p ∧
          p.Nodup) ∧
      ((discover_related exChain 1 1 20 []).2.1.map NodeRec.id).Nodup :=
  discover_simple_paths exChain (by decide) 1 1 20 []

/-! ## C5 / C6: attribute-index consistency -/

theorem mem_truthyAdd {ix : List (String × List Nat)} {v : PyVal}
    {n m : Nat} {k : String} :
    m ∈ iget (truthyAdd ix v n) k ↔
      m ∈ iget ix k ∨ (m = n ∧ sectorKey v = some k) := by
  rcases v with _ | _ | s
  · simp [truthyAdd, sectorKey]
  · simp [truthyAdd, sectorKey]
  · simp only [truthyAdd, sectorKey]
    by_cases hs : s = ""
    · simp [hs]
    · rw [if_neg hs, if_neg hs, mem_iget_iadd]
      constructor
      · rintro (h | ⟨h1, h2⟩)
        · exact Or.inl h
        · exact Or.inr ⟨h2, by rw [h1]⟩
      · rintro (h | ⟨h1, h2⟩)
        · exact Or.inl h
        · rw [Option.some_inj] at h2
          exact Or.inr ⟨h2.symm, h1⟩

theorem mem_truthyDiscard {ix : List (String × List Nat)} {v : PyVal}
    {n m : Nat} {k : String} :
    m ∈ iget (truthyDiscard ix v n) k ↔
      m ∈ iget ix k ∧ ¬ (m = n ∧ sectorKey v = some k) := by
  rcases v with _ | _ | s
  · simp [truthyDiscard, sectorKey]
  · simp [truthyDiscard, sectorKey]
  · simp only [truthyDiscard, sectorKey]
    by_cases hs : s = ""
    · simp [hs]
    · rw [if_neg hs, if_neg hs, mem_iget_idiscard]
      constructor
      · rintro ⟨h, h2⟩
        refine ⟨h, ?_⟩
        rintro ⟨h3, h4⟩
        rw [Option.some_inj] at h4
        exact h2 ⟨h4.symm, h3⟩
      · rintro ⟨h, h2⟩
        refine ⟨h, ?_⟩
        rintro ⟨h3, h4⟩
        exact h2 ⟨h4, by rw [h3]⟩

theorem mem_optAdd {ix : List (String × List Nat)} {v : Option String}
    {n m : Nat} {k : String} :
    m ∈ iget (optAdd ix v n) k ↔
      m ∈ iget ix k ∨ (m = n ∧ optKey v = some k) := by
  rcases v with _ | s
  · simp [optAdd, optKey]
  · simp only [optAdd, optKey]
    by_cases hs : s = ""
    · simp [hs]
    · rw [if_neg hs, if_neg hs, mem_iget_iadd]
      constructor
      · rintro (h | ⟨h1, h2⟩)
        · exact Or.inl h
        · exact Or.inr ⟨h2, by rw [h1]⟩
      · rintro (h | ⟨h1, h2⟩)
        · exact Or.inl h
        · rw [Option.some_inj] at h2
          exact Or.inr ⟨h2.symm, h1⟩

theorem mem_foldIadd {skills : List String} {rid : Nat}
    {ix : List (String × List Nat)} {m : Nat} {k : String} :
    m ∈ iget (skills.foldl (fun ix sk => iadd ix (pyLower sk) rid) ix) k ↔
      m ∈ iget ix k ∨ (m = rid ∧ k ∈ skills.map pyLower) := by
  induction skills generalizing ix with
  | nil => simp
  | cons sk tl ih =>
    rw [List.foldl_cons, ih, mem_iget_iadd]
    simp only [List.map_cons, List.mem_cons]
    constructor
    · rintro ((h | ⟨h1, h2⟩) | ⟨h1, h2⟩)
      · exact Or.inl h
      · exact Or.inr ⟨h2, Or.inl h1⟩
      · exact Or.inr ⟨h1, Or.inr h2⟩
    · rintro (h | ⟨h1, h2 | h2⟩)
      · exact Or.inl (Or.inl h)
      · exact Or.inl (Or.inr ⟨h2, h1⟩)
      · exact Or.inr ⟨h1, h2⟩

theorem mem_foldIdiscard {skills : List String} {rid : Nat}
    {ix : List (String × List Nat)} {m : Nat} {k : String} :
    m ∈ iget (skills.foldl (fun ix sk => idiscard ix (pyLower sk) rid) ix) k ↔
      m ∈ iget ix k ∧ ¬ (m = rid ∧ k ∈ skills.map pyLower) := by
  induction skills generalizing ix with
  | nil => simp
  | cons sk tl ih =>
    rw [List.foldl_cons, ih, mem_iget_idiscard]
    simp only [List.map_cons, List.mem_cons]
    constructor
    · rintro ⟨⟨h, h2⟩, h3⟩
      refine ⟨h, ?_⟩
      rintro ⟨h4, h5 | h5⟩
      · exact h2 ⟨h5, h4⟩
      · exact h3 ⟨h4, h5⟩
    · rintro ⟨h, h2⟩
      refine ⟨⟨h, ?_⟩, ?_⟩
      · rintro ⟨h3, h4⟩
        exact h2 ⟨h4, Or.inl h3⟩
      · rintro ⟨h3, h4⟩
        exact h2 ⟨h3, Or.inr h4⟩

/-- Full consistency of the four attribute indices against the primary map:
an id sits in a bucket exactly when its stored record currently carries the
bucket's key. -/
def IndexConsistent (st : Engine) : Prop :=
  (∀ (t : NodeType) (n : Nat), n ∈ tget st.nodes_by_type t ↔
      ∃ r, aget st.node_data n = some r ∧ r.node_type = t) ∧
  (∀ (k : String) (n : Nat), n ∈ iget st.nodes_by_skill k ↔
      ∃ r, aget st.node_data n = some r ∧ k ∈ r.skills.map pyLower) ∧
  (∀ (k : String) (n : Nat), n ∈ iget st.nodes_by_sector k ↔
      ∃ r, aget st.node_data n = some r ∧ sectorKey r.sector = some k) ∧
  (∀ (k : String) (n : Nat), n ∈ iget st.nodes_by_location k ↔
      ∃ r, aget st.node_data n = some r ∧ sectorKey r.location = some k)

/-- No two distinct skill strings across the old and new skill lists share a
lower-cased form (the condition under which the update's set-difference index
delta is correct; see the C6 counterexample for its necessity). -/
def SkillsLowerCompatible (old new : List String) : Prop :=
  ∀ a ∈ old ++ new, ∀ b ∈ old ++ new, (pyLower a) = (pyLower b) → a = b

/-- The fresh engine is index-consistent. -/
theorem indexConsistent_empty : IndexConsistent Engine.empty := by
  refine ⟨?_, ?_, ?_, ?_⟩ <;>
    · intro k n
      simp [Engine.empty, tget, iget, aget]

/-- Generic index step for a fresh insertion: if a bucket predicate gains
exactly the new record's keys and the id was unstored, consistency carries
over to the extended store. -/
theorem fresh_index_step {κ : Type} (cond : NodeRec → κ → Prop)
    (d : List (Nat × NodeRec)) (r : NodeRec) (hfresh : aget d r.id = none)
    (oldIx newIx : κ → Nat → Prop)
    (hold : ∀ k n, oldIx k n ↔ ∃ rec, aget d n = some rec ∧ cond rec k)
    (hnew : ∀ k n, newIx k n ↔ oldIx k n ∨ (n = r.id ∧ cond r k)) :
    ∀ k n, newIx k n ↔
      ∃ rec, aget (aset d r.id r) n = some rec ∧ cond rec k := by
  intro k n
  rw [hnew, hold]
  by_cases hn : n = r.id
  · subst hn
    rw [aget_aset_self]
    constructor
    · rintro (⟨rec, hrec, _⟩ | ⟨_, hc⟩)
      · rw [hfresh] at hrec
        cases hrec
      · exact ⟨r, rfl, hc⟩
    · rintro ⟨rec, hrec, hc⟩
      rw [Option.some_inj] at hrec
      rw [hrec]
      exact Or.inr ⟨rfl, hc⟩
  · rw [aget_aset_ne _ _ _ _ (Ne.symm hn)]
    constructor
    · rintro (h | ⟨h1, _⟩)
      · exact h
      · exact absurd h1 hn
    · exact Or.inl

/-- Generic index step for a removal: if a bucket predicate loses exactly
the removed record's keys, consistency carries over to the shrunken store. -/
theorem remove_index_step {κ : Type} (cond : NodeRec → κ → Prop)
    (d : List (Nat × NodeRec)) (n0 : Nat) (r : NodeRec)
    (hget : aget d n0 = some r) (oldIx newIx : κ → Nat → Prop)
    (hold : ∀ k n, oldIx k n ↔ ∃ rec, aget d n = some rec ∧ cond rec k)
    (hnew : ∀ k n, newIx k n ↔ oldIx k n ∧ ¬ (n = n0 ∧ cond r k)) :
    ∀ k n, newIx k n ↔
      ∃ rec, aget (adel d n0) n = some rec ∧ cond rec k := by
  intro k n
  rw [hnew, hold]
  by_cases hn : n = n0
  · subst hn
    rw [aget_adel_self]
    constructor
    · rintro ⟨⟨rec, hrec, hc⟩, hne⟩
      rw [hget, Option.some_inj] at hrec
      exact absurd ⟨rfl, hrec ▸ hc⟩ hne
    · rintro ⟨rec, hrec, _⟩
      cases hrec
  · rw [aget_adel_ne _ _ _ (Ne.symm hn)]
    constructor
    · rintro ⟨h, _⟩
      exact h
    · intro h
      exact ⟨h, fun hc => hn hc.1⟩

/-- Generic index step for a single-record rewrite whose bucket predicate
drops the old record's keys and gains the new one's. -/
theorem point_index_step {κ : Type} (cond : NodeRec → κ → Prop)
    (d : List (Nat × NodeRec)) (n0 : Nat) (old newRec : NodeRec)
    (hget : aget d n0 = some old) (oldIx newIx : κ → Nat → Prop)
    (hold : ∀ k n, oldIx k n ↔ ∃ rec, aget d n = some rec ∧ cond rec k)
    (hnew : ∀ k n, newIx k n ↔
      (oldIx k n ∧ ¬ (n = n0 ∧ cond old k)) ∨ (n = n0 ∧ cond newRec k)) :
    ∀ k n, newIx k n ↔
      ∃ rec, aget (aset d n0 newRec) n = some rec ∧ cond rec k := by
  intro k n
  rw [hnew, hold]
  by_cases hn : n = n0
  · subst hn
    rw [aget_aset_self]
    constructor
    · rintro (⟨⟨rec, hrec, hc⟩, hne⟩ | ⟨_, hc⟩)
      · rw [hget, Option.some_inj] at hrec
        exact absurd ⟨rfl, hrec ▸ hc⟩ hne
      · exact ⟨newRec, rfl, hc⟩
    · rintro ⟨rec, hrec, hc⟩
      rw [Option.some_inj] at hrec
      rw [hrec]
      exact Or.inr ⟨rfl, hc⟩
  · rw [aget_aset_ne _ _ _ _ (Ne.symm hn)]
    constructor
    · rintro (⟨h, _⟩ | ⟨h1, _⟩)
      · exact h
      · exact absurd h1 hn
    · intro h
      exact Or.inl ⟨h, fun hc => hn hc.1⟩

/-- Generic index step for a single-record rewrite that leaves both the
bucket predicate and the record's keys unchanged. -/
theorem same_index_step {κ : Type} (cond : NodeRec → κ → Prop)
    (d : List (Nat × NodeRec)) (n0 : Nat) (old newRec : NodeRec)
    (hget : aget d n0 = some old) (hsame : ∀ k, cond old k ↔ cond newRec k)
    (oldIx : κ → Nat → Prop)
    (hold : ∀ k n, oldIx k n ↔ ∃ rec, aget d n = some rec ∧ cond rec k) :
    ∀ k n, oldIx k n ↔
      ∃ rec, aget (aset d n0 newRec) n = some rec ∧ cond rec k := by
  intro k n
  rw [hold]
  by_cases hn : n = n0
  · subst hn
    rw [aget_aset_self, hget]
    constructor
    · rintro ⟨rec, hrec, hc⟩
      rw [Option.some_inj] at hrec
      exact ⟨newRec, rfl, (hsame k).mp (hrec ▸ hc)⟩
    · rintro ⟨rec, hrec, hc⟩
      rw [Option.some_inj] at hrec
      exact ⟨old, rfl, (hsame k).mpr (hrec ▸ hc)⟩
  · rw [aget_aset_ne _ _ _ _ (Ne.symm hn)]

/-- Index consistency survives `add_node` with a fresh id. (With a duplicate
id it does not: see the C5 counterexample.) -/
theorem add_node_consistent (st : Engine) (h : IndexConsistent st)
    (r : NodeRec) (hfresh : aget st.node_data r.id = none) :
    IndexConsistent (add_node st r) := by
  obtain ⟨ht, hsk, hse, hlo⟩ := h
  refine ⟨?_, ?_, ?_, ?_⟩
  · intro t n
    exact fresh_index_step (fun rec t => rec.node_type = t) st.node_data r
      hfresh (fun t n => n ∈ tget st.nodes_by_type t)
      (fun t n => n ∈ tget (add_node st r).nodes_by_type t)
      (fun t n => ht t n)
      (fun t n => by
        show n ∈ tget (tadd st.nodes_by_type r.node_type r.id) t ↔ _
        rw [mem_tget_tadd]
        constructor
        · rintro (h | ⟨h1, h2⟩)
          · exact Or.inl h
          · exact Or.inr ⟨h2, h1.symm⟩
        · rintro (h | ⟨h1, h2⟩)
          · exact Or.inl h
          · exact Or.inr ⟨h2.symm, h1⟩) t n
  · intro k n
    exact fresh_index_step
      (fun rec k => k ∈ rec.skills.map pyLower) st.node_data r
      hfresh (fun k n => n ∈ iget st.nodes_by_skill k)
      (fun k n => n ∈ iget (add_node st r).nodes_by_skill k)
      (fun k n => hsk k n)
      (fun k n => by
        show n ∈ iget (r.skills.foldl
          (fun ix sk => iadd ix (pyLower sk) r.id) st.nodes_by_skill) k ↔ _
        rw [mem_foldIadd]) k n
  · intro k n
    exact fresh_index_step (fun rec k => sectorKey rec.sector = some k)
      st.node_data r hfresh (fun k n => n ∈ iget st.nodes_by_sector k)
      (fun k n => n ∈ iget (add_node st r).nodes_by_sector k)
      (fun k n => hse k n)
      (fun k n => by
        show n ∈ iget (truthyAdd st.nodes_by_sector r.sector r.id) k ↔ _
        rw [mem_truthyAdd]) k n
  · intro k n
    exact fresh_index_step (fun rec k => sectorKey rec.location = some k)
      st.node_data r hfresh (fun k n => n ∈ iget st.nodes_by_location k)
      (fun k n => n ∈ iget (add_node st r).nodes_by_location k)
      (fun k n => hlo k n)
      (fun k n => by
        show n ∈ iget (truthyAdd st.nodes_by_location r.location r.id) k ↔ _
        rw [mem_truthyAdd]) k n

/-- Index consistency survives `remove_node` (on any id). -/
theorem remove_node_consistent (st : Engine) (h : IndexConsistent st)
    (n0 : Nat) : IndexConsistent (remove_node st n0).1 := by
  obtain ⟨ht, hsk, hse, hlo⟩ := h
  rcases hget : aget st.node_data n0 with _ | r
  · unfold remove_node
    rw [hget]
    exact ⟨ht, hsk, hse, hlo⟩
  · have e1 : (remove_node st n0).1.nodes_by_type =
        tdiscard st.nodes_by_type r.node_type n0 := by
      unfold remove_node
      rw [hget]
    have e2 : (remove_node st n0).1.nodes_by_skill =
        r.skills.foldl (fun ix sk => idiscard ix (pyLower sk) n0)
          st.nodes_by_skill := by
      unfold remove_node
      rw [hget]
    have e3 : (remove_node st n0).1.nodes_by_sector =
        truthyDiscard st.nodes_by_sector r.sector n0 := by
      unfold remove_node
      rw [hget]
    have e4 : (remove_node st n0).1.nodes_by_location =
        truthyDiscard st.nodes_by_location r.location n0 := by
      unfold remove_node
      rw [hget]
    have e5 : (remove_node st n0).1.node_data = adel st.node_data n0 := by
      unfold remove_node
      rw [hget]
    refine ⟨?_, ?_, ?_, ?_⟩
    · have hnew : ∀ (t : NodeType) (m : Nat),
          m ∈ tget (tdiscard st.nodes_by_type r.node_type n0) t ↔
            m ∈ tget st.nodes_by_type t ∧ ¬ (m = n0 ∧ r.node_type = t) := by
        intro t m
        rw [mem_tget_tdiscard]
        constructor
        · rintro ⟨h1, h2⟩
          exact ⟨h1, fun hc => h2 ⟨hc.2.symm, hc.1⟩⟩
        · rintro ⟨h1, h2⟩
          exact ⟨h1, fun hc => h2 ⟨hc.2, hc.1.symm⟩⟩
      intro t n
      rw [e1, e5]
      exact remove_index_step (fun rec t => rec.node_type = t) st.node_data
        n0 r hget _ _ ht hnew t n
    · have hnew : ∀ (k : String) (m : Nat),
          m ∈ iget (r.skills.foldl
              (fun ix sk => idiscard ix (pyLower sk) n0) st.nodes_by_skill)
            k ↔
            m ∈ iget st.nodes_by_skill k ∧
              ¬ (m = n0 ∧ k ∈ r.skills.map pyLower) := by
        intro k m
        rw [mem_foldIdiscard]
      intro k n
      rw [e2, e5]
      exact remove_index_step
        (fun rec k => k ∈ rec.skills.map pyLower) st.node_data n0 r
        hget _ _ hsk hnew k n
    · have hnew : ∀ (k : String) (m : Nat),
          m ∈ iget (truthyDiscard st.nodes_by_sector r.sector n0) k ↔
            m ∈ iget st.nodes_by_sector k ∧
              ¬ (m = n0 ∧ sectorKey r.sector = some k) := by
        intro k m
        rw [mem_truthyDiscard]
      intro k n
      rw [e3, e5]
      exact remove_index_step (fun rec k => sectorKey rec.sector = some k)
        st.node_data n0 r hget _ _ hse hnew k n
    · have hnew : ∀ (k : String) (m : Nat),
          m ∈ iget (truthyDiscard st.nodes_by_location r.location n0) k ↔
            m ∈ iget st.nodes_by_location k ∧
              ¬ (m = n0 ∧ sectorKey r.location = some k) := by
        intro k m
        rw [mem_truthyDiscard]
      intro k n
      rw [e4, e5]
      exact remove_index_step (fun rec k => sectorKey rec.location = some k)
        st.node_data n0 r hget _ _ hlo hnew k n

instance (old new : List String) : Decidable (SkillsLowerCompatible old new) := by
  unfold SkillsLowerCompatible
  infer_instance

theorem applyUpdates_node_type {r : NodeRec} {u : NodeUpdates}
    (h : u.node_type = none) : (applyUpdates r u).node_type = r.node_type := by
  simp [applyUpdates, h]

theorem applyUpdates_skills_some {r : NodeRec} {u : NodeUpdates}
    {ns : List String} (h : u.skills = some ns) :
    (applyUpdates r u).skills = ns := by
  simp [applyUpdates, h]

theorem applyUpdates_skills_none {r : NodeRec} {u : NodeUpdates}
    (h : u.skills = none) : (applyUpdates r u).skills = r.skills := by
  simp [applyUpdates, h]

theorem applyUpdates_sector_some {r : NodeRec} {u : NodeUpdates}
    {v : Option String} (h : u.sector = some v) :
    sectorKey (applyUpdates r u).sector = optKey v := by
  rcases v with _ | s
  · simp [applyUpdates, h, sectorKey, optKey]
  · simp [applyUpdates, h, sectorKey, optKey]

theorem applyUpdates_sector_none {r : NodeRec} {u : NodeUpdates}
    (h : u.sector = none) : (applyUpdates r u).sector = r.sector := by
  simp [applyUpdates, h]

theorem applyUpdates_location_some {r : NodeRec} {u : NodeUpdates}
    {v : Option String} (h : u.location = some v) :
    sectorKey (applyUpdates r u).location = optKey v := by
  rcases v with _ | s
  · simp [applyUpdates, h, sectorKey, optKey]
  · simp [applyUpdates, h, sectorKey, optKey]

theorem applyUpdates_location_none {r : NodeRec} {u : NodeUpdates}
    (h : u.location = none) : (applyUpdates r u).location = r.location := by
  simp [applyUpdates, h]

/-- Correctness of the skills set-difference delta on lower-cased keys, under
the no-collision condition: after discarding the keys of dropped skills and
adding the keys of gained skills, exactly the new skills' keys remain. -/
theorem skills_delta_iff (OS NS : List String)
    (hc : SkillsLowerCompatible OS NS) (k : String) :
    ((k ∈ OS.map pyLower ∧
        ¬ k ∈ (OS.dedup.filter (fun s => s ∉ NS.dedup)).map pyLower) ∨
      k ∈ (NS.dedup.filter (fun s => s ∉ OS.dedup)).map pyLower) ↔
    k ∈ NS.map pyLower := by
  constructor
  · rintro (⟨hk, hnot⟩ | hk)
    · rcases List.mem_map.mp hk with ⟨s, hs, rfl⟩
      by_cases hsn : s ∈ NS
      · exact List.mem_map.mpr ⟨s, hsn, rfl⟩
      · exfalso
        apply hnot
        refine List.mem_map.mpr ⟨s, ?_, rfl⟩
        rw [List.mem_filter]
        refine ⟨List.mem_dedup.mpr hs, ?_⟩
        simp [List.mem_dedup, hsn]
    · rcases List.mem_map.mp hk with ⟨s, hs, rfl⟩
      rw [List.mem_filter] at hs
      exact List.mem_map.mpr ⟨s, List.mem_dedup.mp hs.1, rfl⟩
  · intro hk
    rcases List.mem_map.mp hk with ⟨s, hs, rfl⟩
    by_cases hso : s ∈ OS
    · left
      refine ⟨List.mem_map.mpr ⟨s, hso, rfl⟩, ?_⟩
      intro hmem
      rcases List.mem_map.mp hmem with ⟨t, ht, htl⟩
      rw [List.mem_filter] at ht
      have ht1 : t ∈ OS := List.mem_dedup.mp ht.1
      have ht2 : t ∉ NS := by
        have h2 := ht.2
        simp [List.mem_dedup] at h2
        exact h2
      have hts : t = s := hc t (by simp [ht1]) s (by simp [hs]) htl
      exact ht2 (hts ▸ hs)
    · right
      refine List.mem_map.mpr ⟨s, ?_, rfl⟩
      rw [List.mem_filter]
      exact ⟨List.mem_dedup.mpr hs, by simp [List.mem_dedup, hso]⟩

/-- The skills index stays consistent through an update's set-difference
delta, under the no-collision condition. -/
theorem update_skill_consistent (st : Engine)
    (hsk : ∀ (k : String) (n : Nat), n ∈ iget st.nodes_by_skill k ↔
      ∃ r, aget st.node_data n = some r ∧ k ∈ r.skills.map pyLower)
    (n : Nat) (old : NodeRec) (hget : aget st.node_data n = some old)
    (ns : List String) (hc : SkillsLowerCompatible old.skills ns)
    (newRec : NodeRec) (hnewSkills : newRec.skills = ns) :
    ∀ (k : String) (m : Nat),
      m ∈ iget ((ns.dedup.filter (fun s => s ∉ old.skills.dedup)).foldl
          (fun ix s => iadd ix (pyLower s) n)
          ((old.skills.dedup.filter (fun s => s ∉ ns.dedup)).foldl
            (fun ix s => idiscard ix (pyLower s) n) st.nodes_by_skill)) k ↔
        ∃ rec, aget (aset st.node_data n newRec) m = some rec ∧
          k ∈ rec.skills.map pyLower := by
  intro k m
  rw [mem_foldIadd, mem_foldIdiscard]
  by_cases hm : m = n
  · subst hm
    rw [aget_aset_self]
    have hb : m ∈ iget st.nodes_by_skill k ↔
        k ∈ old.skills.map pyLower := by
      rw [hsk k m]
      constructor
      · rintro ⟨rec, hrec, hk⟩
        rw [hget, Option.some_inj] at hrec
        exact hrec ▸ hk
      · intro hk
        exact ⟨old, hget, hk⟩
    rw [hb]
    simp only [eq_self_iff_true, true_and]
    rw [skills_delta_iff old.skills ns hc k]
    constructor
    · intro hk
      refine ⟨newRec, rfl, ?_⟩
      rw [hnewSkills]
      exact hk
    · rintro ⟨rec, hrec, hk⟩
      rw [Option.some_inj] at hrec
      rw [← hrec, hnewSkills] at hk
      exact hk
  · rw [aget_aset_ne _ _ _ _ (Ne.symm hm)]
    constructor
    · rintro (⟨h1, _⟩ | ⟨h1, _⟩)
      · exact (hsk k m).mp h1
      · exact absurd h1 hm
    · intro h
      exact Or.inl ⟨(hsk k m).mpr h, fun hc2 => hm hc2.1⟩

/-- Index consistency survives `update_node`, provided the update carries no
`node_type` key (the engine never adjusts the type index on update) and its
skills delta is collision-free (see the C6 counterexample otherwise). -/
theorem update_node_consistent (st : Engine) (h : IndexConsistent st)
    (n : Nat) (u : NodeUpdates) (htype : u.node_type = none)
    (hcompat : ∀ old ns, aget st.node_data n = some old →
      u.skills = some ns → SkillsLowerCompatible old.skills ns) :
    IndexConsistent (update_node st n u).1 := by
  obtain ⟨ht, hsk, hse, hlo⟩ := h
  rcases hget : aget st.node_data n with _ | old
  · unfold update_node
    rw [hget]
    exact ⟨ht, hsk, hse, hlo⟩
  · have eT : (update_node st n u).1.nodes_by_type = st.nodes_by_type := by
      unfold update_node
      rw [hget]
    have eD : (update_node st n u).1.node_data =
        aset st.node_data n (applyUpdates old u) := by
      unfold update_node
      rw [hget]
    refine ⟨?_, ?_, ?_, ?_⟩
    · intro t m
      rw [eT, eD]
      exact same_index_step (fun rec t => rec.node_type = t) st.node_data n
        old (applyUpdates old u) hget
        (fun t => by
          show old.node_type = t ↔ (applyUpdates old u).node_type = t
          rw [applyUpdates_node_type htype]) _ ht t m
    · rcases hus : u.skills with _ | ns
      · have eS : (update_node st n u).1.nodes_by_skill =
            st.nodes_by_skill := by
          unfold update_node
          rw [hget, hus]
        intro k m
        rw [eS, eD]
        exact same_index_step
          (fun rec k => k ∈ rec.skills.map pyLower) st.node_data n
          old (applyUpdates old u) hget
          (fun k => by
            show k ∈ old.skills.map pyLower ↔
              k ∈ (applyUpdates old u).skills.map pyLower
            rw [applyUpdates_skills_none hus]) _ hsk k m
      · have eS : (update_node st n u).1.nodes_by_skill =
            (ns.dedup.filter (fun s => s ∉ old.skills.dedup)).foldl
              (fun ix s => iadd ix (pyLower s) n)
              ((old.skills.dedup.filter (fun s => s ∉ ns.dedup)).foldl
                (fun ix s => idiscard ix (pyLower s) n) st.nodes_by_skill) := by
          unfold update_node
          rw [hget, hus]
        intro k m
        rw [eS, eD]
        exact update_skill_consistent st hsk n old hget ns
          (hcompat old ns hget hus) (applyUpdates old u)
          (applyUpdates_skills_some hus) k m
    · rcases hus : u.sector with _ | v
      · have eS : (update_node st n u).1.nodes_by_sector =
            st.nodes_by_sector := by
          unfold update_node
          rw [hget, hus]
        intro k m
        rw [eS, eD]
        exact same_index_step (fun rec k => sectorKey rec.sector = some k)
          st.node_data n old (applyUpdates old u) hget
          (fun k => by
            show sectorKey old.sector = some k ↔
              sectorKey (applyUpdates old u).sector = some k
            rw [applyUpdates_sector_none hus]) _ hse k m
      · have eS : (update_node st n u).1.nodes_by_sector =
            optAdd (truthyDiscard st.nodes_by_sector old.sector n) v n := by
          unfold update_node
          rw [hget, hus]
        have hnew : ∀ (k : String) (m : Nat),
            m ∈ iget (optAdd (truthyDiscard st.nodes_by_sector old.sector n)
              v n) k ↔
              (m ∈ iget st.nodes_by_sector k ∧
                  ¬ (m = n ∧ sectorKey old.sector = some k)) ∨
                (m = n ∧ sectorKey (applyUpdates old u).sector = some k) := by
          intro k m
          rw [mem_optAdd, mem_truthyDiscard, applyUpdates_sector_some hus]
        intro k m
        rw [eS, eD]
        exact point_index_step (fun rec k => sectorKey rec.sector = some k)
          st.node_data n old (applyUpdates old u) hget _ _ hse hnew k m
    · rcases hus : u.location with _ | v
      · have eS : (update_node st n u).1.nodes_by_location =
            st.nodes_by_location := by
          unfold update_node
          rw [hget, hus]
        intro k m
        rw [eS, eD]
        exact same_index_step (fun rec k => sectorKey rec.location = some k)
          st.node_data n old (applyUpdates old u) hget
          (fun k => by
            show sectorKey old.location = some k ↔
              sectorKey (applyUpdates old u).location = some k
            rw [applyUpdates_location_none hus]) _ hlo k m
      · have eS : (update_node st n u).1.nodes_by_location =
            optAdd (truthyDiscard st.nodes_by_location old.location n) v
              n := by
          unfold update_node
          rw [hget, hus]
        have hnew : ∀ (k : String) (m : Nat),
            m ∈ iget (optAdd
              (truthyDiscard st.nodes_by_location old.location n) v n) k ↔
              (m ∈ iget st.nodes_by_location k ∧
                  ¬ (m = n ∧ sectorKey old.location = some k)) ∨
                (m = n ∧
                  sectorKey (applyUpdates old u).location = some k) := by
          intro k m
          rw [mem_optAdd, mem_truthyDiscard, applyUpdates_location_some hus]
        intro k m
        rw [eS, eD]
        exact point_index_step (fun rec k => sectorKey rec.location = some k)
          st.node_data n old (applyUpdates old u) hget _ _ hlo hnew k m

/-- C5, amended. Starting from a consistent store, every attribute index
(type, skill, sector, location) again exactly matches the stored records
after: `add_node` with a FRESH id; `remove_node` on any id; and
`update_node` whose update dict carries no `node_type` key and whose skills
delta is free of lower-case collisions. (The original claim also covered
duplicate-id `add_node`, which leaks the overwritten record's stale index
entries — see the counterexample; `update_node` with a `node_type` key or a
case-colliding skills delta breaks consistency the same way.) -/
theorem index_consistency_preserved (st : Engine) (h : IndexConsistent st) :
    (∀ r : NodeRec, aget st.node_data r.id = none →
        IndexConsistent (add_node st r)) ∧
      (∀ n : Nat, IndexConsistent (remove_node st n).1) ∧
      (∀ (n : Nat) (u : NodeUpdates), u.node_type = none →
        (∀ old ns, aget st.node_data n = some old → u.skills = some ns →
          SkillsLowerCompatible old.skills ns) →
        IndexConsistent (update_node st n u).1) :=
  ⟨fun r hf => add_node_consistent st h r hf,
    fun n => remove_node_consistent st h n,
    fun n u ht hc => update_node_consistent st h n u ht hc⟩

/-- First record for the duplicate-id scenario: id 1 carrying skill "a". -/
def exDupA : NodeRec := { id := 1, node_type := .individual, skills := ["a"] }

/-- Overwriting record for the duplicate-id scenario: id 1 with no skills. -/
def exDupB : NodeRec := { id := 1, node_type := .individual, skills := [] }

/-- Counterexample to C5 as stated: `add_node` with an id that already
exists silently replaces the record but never cleans the superseded index
entries — after overwriting node 1 (skill "a") with a skill-less record, the
"a" bucket still lists node 1. -/
theorem index_consistency_counterexample :
    ¬ IndexConsistent (add_node (add_node Engine.empty exDupA) exDupB) := by
  intro h
  have h1 : (1 : Nat) ∈
      iget (add_node (add_node Engine.empty exDupA) exDupB).nodes_by_skill
        "a" := by decide
  rcases (h.2.1 "a" 1).mp h1 with ⟨rec, hrec, hk⟩
  have h2 : aget (add_node (add_node Engine.empty exDupA)
      exDupB).node_data 1 = some exDupB := by decide
  rw [h2, Option.some_inj] at hrec
  rw [← hrec] at hk
  simp [exDupB] at hk

/-- Witness for the amended C5: a fresh add, a removal and a collision-free
skills update, all from concrete consistent states. -/
theorem index_consistency_preserved_witness :
    IndexConsistent (add_node Engine.empty exDupA) ∧
      IndexConsistent (remove_node (add_node Engine.empty exDupA) 1).1 ∧
      IndexConsistent (update_node (add_node Engine.empty exDupA) 1
        { skills := some ["b"] }).1 := by
  have h1 : IndexConsistent (add_node Engine.empty exDupA) :=
    (index_consistency_preserved Engine.empty indexConsistent_empty).1
      exDupA rfl
  refine ⟨h1, (index_consistency_preserved _ h1).2.1 1,
    (index_consistency_preserved _ h1).2.2 1 { skills := some ["b"] } rfl
      ?_⟩
  intro old ns hget hns
  have hold : old = exDupA := by
    rw [show aget (add_node Engine.empty exDupA).node_data 1 =
      some exDupA from rfl, Option.some_inj] at hget
    exact hget.symm
  injection hns with hns2
  rw [hold, ← hns2]
  decide

/-- C6, amended. After a successful `update_node` whose skills delta is free
of lower-case collisions, every index lookup for the node's new skill values
and new (non-empty) sector/location values contains the node, and every
lookup for a superseded skill value, or for a superseded sector/location key
not re-introduced by the new value, no longer does. (Without the collision
condition the claim fails — see the counterexample.) -/
theorem update_index_lookups (st : Engine) (h : IndexConsistent st)
    (n : Nat) (u : NodeUpdates) (old : NodeRec)
    (hget : aget st.node_data n = some old)
    (hcompat : ∀ ns, u.skills = some ns →
      SkillsLowerCompatible old.skills ns) :
    (∀ ns, u.skills = some ns →
        (∀ s ∈ ns, n ∈
            iget (update_node st n u).1.nodes_by_skill (pyLower s)) ∧
          (∀ s ∈ old.skills, s ∉ ns →
            n ∉ iget (update_node st n u).1.nodes_by_skill (pyLower s))) ∧
      (∀ v, u.sector = some v →
        (∀ s, v = some s → s ≠ "" →
            n ∈ iget (update_node st n u).1.nodes_by_sector (pyLower s)) ∧
          (∀ k, sectorKey old.sector = some k → optKey v ≠ some k →
            n ∉ iget (update_node st n u).1.nodes_by_sector k)) ∧
      (∀ v, u.location = some v →
        (∀ s, v = some s → s ≠ "" →
            n ∈ iget (update_node st n u).1.nodes_by_location (pyLower s)) ∧
          (∀ k, sectorKey old.location = some k → optKey v ≠ some k →
            n ∉ iget (update_node st n u).1.nodes_by_location k)) := by
  refine ⟨?_, ?_, ?_⟩
  · intro ns hns
    have eS : (update_node st n u).1.nodes_by_skill =
        (ns.dedup.filter (fun s => s ∉ old.skills.dedup)).foldl
          (fun ix s => iadd ix (pyLower s) n)
          ((old.skills.dedup.filter (fun s => s ∉ ns.dedup)).foldl
            (fun ix s => idiscard ix (pyLower s) n) st.nodes_by_skill) := by
      unfold update_node
      rw [hget, hns]
    have hiff := update_skill_consistent st h.2.1 n old hget ns
      (hcompat ns hns) (applyUpdates old u) (applyUpdates_skills_some hns)
    constructor
    · intro s hs
      rw [eS]
      refine (hiff (pyLower s) n).mpr ⟨applyUpdates old u, aget_aset_self _ _
        _, ?_⟩
      rw [applyUpdates_skills_some hns]
      exact List.mem_map.mpr ⟨s, hs, rfl⟩
    · intro s hs hnot hmem
      rw [eS] at hmem
      rcases (hiff (pyLower s) n).mp hmem with ⟨rec, hrec, hk⟩
      rw [aget_aset_self, Option.some_inj] at hrec
      rw [← hrec, applyUpdates_skills_some hns] at hk
      rcases List.mem_map.mp hk with ⟨t, ht, htl⟩
      have hts : t = s :=
        hcompat ns hns t (by simp [ht]) s (by simp [hs]) htl
      exact hnot (hts ▸ ht)
  · intro v hv
    have eS : (update_node st n u).1.nodes_by_sector =
        optAdd (truthyDiscard st.nodes_by_sector old.sector n) v n := by
      unfold update_node
      rw [hget, hv]
    constructor
    · intro s hvs hne
      rw [eS, hvs]
      refine mem_optAdd.mpr (Or.inr ⟨rfl, ?_⟩)
      simp [optKey, hne]
    · intro k hk hne hmem
      rw [eS] at hmem
      rcases mem_optAdd.mp hmem with hmem | ⟨_, h2⟩
      · exact (mem_truthyDiscard.mp hmem).2 ⟨rfl, hk⟩
      · exact hne h2
  · intro v hv
    have eS : (update_node st n u).1.nodes_by_location =
        optAdd (truthyDiscard st.nodes_by_location old.location n) v n := by
      unfold update_node
      rw [hget, hv]
    constructor
    · intro s hvs hne
      rw [eS, hvs]
      refine mem_optAdd.mpr (Or.inr ⟨rfl, ?_⟩)
      simp [optKey, hne]
    · intro k hk hne hmem
      rw [eS] at hmem
      rcases mem_optAdd.mp hmem with hmem | ⟨_, h2⟩
      · exact (mem_truthyDiscard.mp hmem).2 ⟨rfl, hk⟩
      · exact hne h2

/-- Node 1 with two skills whose lower-cased forms collide. -/
def exColl : NodeRec :=
  { id := 1, node_type := .individual, skills := ["Go", "gO"] }

/-- Counterexample to C6 as stated: updating skills from ["Go", "gO"] to
["Go"] computes the set difference {"gO"} and discards the shared
lower-cased bucket "go", so the lookup for the KEPT current skill "Go" no
longer returns the node. -/
theorem update_index_lookups_counterexample :
    (aget (update_node (add_node Engine.empty exColl) 1
        { skills := some ["Go"] }).1.node_data 1).map NodeRec.skills =
        some ["Go"] ∧
      (1 : Nat) ∉ iget (update_node (add_node Engine.empty exColl) 1
        { skills := some ["Go"] }).1.nodes_by_skill ((pyLower "Go")) := by
  constructor
  · decide
  · decide

/-- Witness for the amended C6 at a concrete state: node 1 (skill "a")
updated to skill "b" and sector "Fin". -/
theorem update_index_lookups_witness :
    (1 : Nat) ∈ iget (update_node (add_node Engine.empty exDupA) 1
        { skills := some ["b"],
          sector := some (some "Fin") }).1.nodes_by_skill ((pyLower "b")) ∧
      (1 : Nat) ∉ iget (update_node (add_node Engine.empty exDupA) 1
        { skills := some ["b"],
          sector := some (some "Fin") }).1.nodes_by_skill ((pyLower "a")) ∧
      (1 : Nat) ∈ iget (update_node (add_node Engine.empty exDupA) 1
        { skills := some ["b"],
          sector := some (some "Fin") }).1.nodes_by_sector
        ((pyLower "Fin")) := by
  have hcons : IndexConsistent (add_node Engine.empty exDupA) :=
    add_node_consistent Engine.empty indexConsistent_empty exDupA rfl
  have hcompat : ∀ ns,
      ({ skills := some ["b"], sector := some (some "Fin") } :
        NodeUpdates).skills = some ns →
      SkillsLowerCompatible exDupA.skills ns := by
    intro ns hns
    injection hns with hns2
    rw [← hns2]
    decide
  have hl := update_index_lookups (add_node Engine.empty exDupA) hcons 1
    { skills := some ["b"], sector := some (some "Fin") } exDupA rfl hcompat
  exact ⟨(hl.1 ["b"] rfl).1 "b" (by decide),
    (hl.1 ["b"] rfl).2 "a" (by decide) (by decide),
    (hl.2.1 (some "Fin") rfl).1 "Fin" rfl (by decide)⟩

/-! ## C7: the similarity score formula -/

theorem pyLower_eq_empty_iff (s : String) : pyLower s = "" ↔ s = "" := by
  unfold pyLower
  rw [String.ext_iff, String.ext_iff]
  simp

/-- The score C7 prescribes, written from the spec's words: twice the skill
overlap, plus 3 when the two sector values match case-sensitively as stored,
plus 1 when the two location values match exactly. -/
def specScoreC7 (source cand : NodeRec) : Int :=
  2 * ((source.skills.dedup.filter (fun s => s ∈ cand.skills)).length : Int)
    + (match source.sector, cand.sector with
      | .pystr a, .pystr b => if a = b then 3 else 0
      | _, _ => 0)
    + (match source.location, cand.location with
      | .pystr a, .pystr b => if a = b then 1 else 0
      | _, _ => 0)

/-- The sector bonus the code actually grants, on a pair of sector values:
3 when the source's is a non-empty string and the candidate's lower-cases to
the same string. -/
def ciSecBonusV (x y : PyVal) : Int :=
  match x, y with
  | .pystr a, .pystr b => if a ≠ "" ∧ pyLower b = pyLower a then 3 else 0
  | _, _ => 0

/-- The sector bonus of the similarity score. -/
def ciSectorBonus (source cand : NodeRec) : Int :=
  ciSecBonusV source.sector cand.sector

/-- The location bonus the code actually grants, on a pair of location
values: 1 when the source's is a non-empty string equal (case-sensitively)
to the candidate's. -/
def ciLocBonusV (x y : PyVal) : Int :=
  match x, y with
  | .pystr a, .pystr b => if a ≠ "" ∧ b = a then 1 else 0
  | _, _ => 0

/-- The location bonus of the similarity score. -/
def ciLocationBonus (source cand : NodeRec) : Int :=
  ciLocBonusV source.location cand.location

theorem locBonus_eq (x y : PyVal) :
    (if x.truthy ∧ x.pyget = y.pyget then (1 : Int) else 0) =
      ciLocBonusV x y := by
  rcases x with _ | _ | a <;> rcases y with _ | _ | b <;>
    simp [PyVal.truthy, PyVal.pyget, ciLocBonusV]
  by_cases ha : a = ""
  · simp [ha]
  · by_cases hab : a = b
    · simp [ha, hab]
    · rw [if_neg (fun hx : ¬ a = "" ∧ a = b => hab hx.2),
        if_neg (fun hx : ¬ a = "" ∧ b = a => hab hx.2.symm)]

theorem skillBase_eq (source cand : NodeRec) :
    (if source.skills.dedup ≠ [] ∧ cand.skills.dedup ≠ [] then
        2 * ((source.skills.dedup.filter
          (fun s => s ∈ cand.skills.dedup)).length : Int)
      else 0) =
      2 * ((source.skills.dedup.filter
        (fun s => s ∈ cand.skills)).length : Int) := by
  have hfc : source.skills.dedup.filter (fun s => s ∈ cand.skills.dedup) =
      source.skills.dedup.filter (fun s => s ∈ cand.skills) :=
    List.filter_congr (fun x _ => by simp [List.mem_dedup])
  rw [hfc]
  by_cases h1 : source.skills.dedup = []
  · simp [h1]
  · by_cases h2 : cand.skills.dedup = []
    · have h3 : cand.skills = [] := by
        rw [← List.dedup_eq_nil]
        exact h2
      simp [h1, h2, h3]
    · simp [h1, h2]

/-- C7, amended. Whenever the scoring of a same-type candidate completes
without raising (the source's `sector` is not an explicit null, nor the
candidate's while the source's sector is a non-empty string), the score
equals 2 x |sourceSkills ∩ candidateSkills|, plus 3 if the source's sector
is non-empty and the candidate's sector matches it case-INsensitively
(lower-cased on both sides), plus 1 if the source's location is non-empty
and equals the candidate's exactly. (The claim's case-sensitive sector match
is wrong: the code lower-cases both sides — see the counterexample.) -/
theorem similarity_score_formula (source cand : NodeRec) (k : Int)
    (h : simScore source cand = some k) :
    k = 2 * ((source.skills.dedup.filter
        (fun s => s ∈ cand.skills)).length : Int) +
      ciSectorBonus source cand + ciLocationBonus source cand := by
  unfold simScore at h
  unfold ciSectorBonus ciLocationBonus
  rw [← skillBase_eq source cand, ← locBonus_eq source.location
    cand.location]
  rcases hs : source.sector with _ | _ | a
  · rw [hs] at h
    simp only [PyVal.lowerGetD, eq_self_iff_true, if_true,
      Option.some_inj] at h
    rw [← h]
    have hz : ciSecBonusV PyVal.absent cand.sector = 0 := by
      rcases cand.sector with _ | _ | b <;> rfl
    rw [hz]
    omega
  · rw [hs] at h
    simp only [PyVal.lowerGetD] at h
    cases h
  · rw [hs] at h
    simp only [PyVal.lowerGetD] at h
    by_cases ha : a = ""
    · rw [ha] at h ⊢
      simp only [show pyLower "" = "" from rfl, eq_self_iff_true, if_true,
        Option.some_inj] at h
      rw [← h]
      have hz : ciSecBonusV (PyVal.pystr "") cand.sector = 0 := by
        rcases cand.sector with _ | _ | b <;> simp [ciSecBonusV]
      rw [hz]
      omega
    · have hla : ¬ pyLower a = "" := fun hx =>
        ha ((pyLower_eq_empty_iff a).mp hx)
      rw [if_neg hla] at h
      rcases hc : cand.sector with _ | _ | b
      · rw [hc] at h
        simp only [PyVal.lowerGetD, Option.some_inj] at h
        rw [if_neg (fun hx : ("" : String) = pyLower a => hla hx.symm)]
          at h
        rw [← h]
        have hz : ciSecBonusV (PyVal.pystr a) PyVal.absent = 0 := rfl
        rw [hz]
      · rw [hc] at h
        simp only [PyVal.lowerGetD] at h
        cases h
      · rw [hc] at h
        simp only [PyVal.lowerGetD, Option.some_inj] at h
        rw [← h]
        have hz : ciSecBonusV (PyVal.pystr a) (PyVal.pystr b) =
            if pyLower b = pyLower a then 3 else 0 := by
          simp [ciSecBonusV, ha]
        rw [hz]

/-- Similarity source for the counterexample: sector stored as "Tech". -/
def exSimA : NodeRec :=
  { id := 1, node_type := .individual, sector := .pystr "Tech" }

/-- Similarity candidate for the counterexample: sector stored as "tech". -/
def exSimB : NodeRec :=
  { id := 2, node_type := .individual, sector := .pystr "tech" }

/-- Counterexample to C7 as stated: the code lower-cases both sectors, so
the same-type pair with sectors "Tech" / "tech" scores 3, while the spec's
case-sensitive formula scores 0. -/
theorem similarity_score_counterexample :
    exSimA.node_type = exSimB.node_type ∧
      simScore exSimA exSimB = some 3 ∧ specScoreC7 exSimA exSimB = 0 := by
  refine ⟨rfl, ?_, ?_⟩
  · decide
  · decide

/-- Witness for the amended C7 at the concrete counterexample pair. -/
theorem similarity_score_formula_witness :
    (3 : Int) = 2 * ((exSimA.skills.dedup.filter
        (fun s => s ∈ exSimB.skills)).length : Int) +
      ciSectorBonus exSimA exSimB + ciLocationBonus exSimA exSimB :=
  similarity_score_formula exSimA exSimB 3 (by decide)

end BlobsGraph
